import Mathlib

/-!
Ripples MPI hill climbing: the seed-selection engine.

A shallow embedding of `include/ripples/mpi/hill_climbing.h`: the fetch-and-add
task cursor shared by the workers of one rank, the CPU counting worker, the
vertex ownership blocks, the one-sided accumulation into the owners' windows and
the MAXLOC selection of the next seed, followed by the properties proved about
them.

Conventions of the embedding.  `size_t`, `long` and `int` values are unbounded
(`Nat`, `Int`): no wrap-around is modelled for them.  Vertex ids are 32-bit
unsigned values: the difference `E - B` of two vertex ids and the conversion of a
`size_t` to a vertex id are taken modulo `2 ^ 32`.  A rank is a natural number
below `world_size`; the state of all ranks is a function from ranks to engine
states, and the ranks advance through the phases of a round in lockstep.  Within
one parallel region the work items are applied in the order of their claims.
-/

set_option autoImplicit false

namespace Ripples

/-! ## Task cursor (`mpmc_head_` and the `while` loops of `build_frontier` / `build_counters`) -/

/-- Shared cursor of one parallel phase.  `mpmc_head` is the atomic counter,
`stopped` lists the workers whose `while` loop has exited, and `log` records, in
the order of the atomic operations, every successful claim as
`(offset, batch_size_)`. -/
structure Cursor where
  mpmc_head : Nat
  stopped : List Nat
  log : List (Nat × Nat)

/-- One evaluation of the loop condition
`(offset = mpmc_head.fetch_add(batch_size_)) < L` by worker `w`, whose batch
size is `pool[w]`.  The counter is advanced in both outcomes; when the test
fails the worker leaves its loop.  A worker that already left, or an index that
names no worker, does nothing. -/
def fetch_add_claim (L : Nat) (pool : List Nat) (c : Cursor) (w : Nat) : Cursor :=
  match pool[w]? with
  | none => c
  | some b =>
    if w ∈ c.stopped then c
    else if c.mpmc_head < L then
      { mpmc_head := c.mpmc_head + b, stopped := c.stopped,
        log := c.log ++ [(c.mpmc_head, b)] }
    else
      { mpmc_head := c.mpmc_head + b, stopped := w :: c.stopped, log := c.log }

/-- State of the cursor after `mpmc_head_.store(0)`. -/
def cursor_reset : Cursor := { mpmc_head := 0, stopped := [], log := [] }

/-- The cursor after the claims of an interleaving `sched` (the sequence of
worker indices in the order in which their `fetch_add` take effect). -/
def run_claims (L : Nat) (pool : List Nat) (sched : List Nat) : Cursor :=
  sched.foldl (fetch_add_claim L pool) cursor_reset

/-- The batch `[first, last)` of a successful claim, as offsets into the range:
`first = offset`, `last = first + batch_size_`, and `if (last > E) last = E`. -/
def batch_bounds (L : Nat) (a : Nat × Nat) : Nat × Nat :=
  (a.1, if a.1 + a.2 > L then L else a.1 + a.2)

/-- Indices visited by the `for` loop over a batch `[first, last)`. -/
def batch_indices (a : Nat × Nat) : List Nat := List.range' a.1 (a.2 - a.1)

/-- Every worker retries until its loop exits: `L + 1` further attempts of each
worker are enough, and attempts of a worker that already left do nothing. -/
def drain (L : Nat) (pool : List Nat) : List Nat :=
  (List.range pool.length).flatMap (fun w => List.replicate (L + 1) w)

/-- Successful claims of one parallel region, in claim order.  The region ends
when every worker has left its loop, so the interleaving `sched` is followed by
the remaining attempts of `drain`. -/
def phase_claims (L : Nat) (pool : List Nat) (sched : List Nat) : List (Nat × Nat) :=
  (run_claims L pool (sched ++ drain L pool)).log

/-- Constant `HCCPUCountingWorker::batch_size_`. -/
def cpu_batch_size_ : Nat := 8

/-- Constant `HCGPUCountingWorker::batch_size_`. -/
def gpu_batch_size_ : Nat := 2

/-- Batch sizes of the workers of an engine built with CPU workers only. -/
def cpu_pool (cpu_workers : Nat) : List Nat := List.replicate cpu_workers cpu_batch_size_

/-! ## Graph, engine state -/

/-- Modelled from the spec: `GraphTy::vertex_type` is declared outside these
sources.  Vertex ids are the naturals `0..n-1`, held in a 32-bit unsigned integer
(the ids must fit the `int index` of the selection pair). -/
abbrev vertex_type := Nat

/-- Number of values of `vertex_type`. -/
def vertex_modulus : Nat := 2 ^ 32

/-- Conversion of a `size_t` value to `vertex_type`, as happens when `first` and
`last` are passed to `batch_counters`. -/
def vertex_narrow (x : Nat) : Nat := x % vertex_modulus

/-- Value of the expression `E - B` on two vertex ids: the subtraction is
unsigned and wraps around when `E` is below `B`. -/
def vertex_distance (B E : Nat) : Nat := (E + vertex_modulus - B) % vertex_modulus

/-- Modelled from the spec: the graph type and the two `BFS` overloads of
`ripples/hill_climbing.h` are outside these sources and are taken as parameters.
`BFS_seeds m S visited` is the visited vector left by the traversal from the seed
set `S` over the live edges of `m`; `BFS_vertex m v visited` is the count returned
by the traversal seeded at `v`, as stored in `long count`. -/
structure Graph (M : Type) where
  num_nodes : Nat
  BFS_seeds : M → Finset vertex_type → List Bool → List Bool
  BFS_vertex : M → vertex_type → List Bool → Int

/-- Mutable fields of `SeedSelectionEngine` of one rank. -/
structure Engine where
  local_count_ : List Int
  global_count_ : List Int
  frontier_cache_ : List (List Bool)
  S_ : Finset Nat

/-- Method `std::vector::resize(n, v)`. -/
def vector_resize {α : Type} (xs : List α) (n : Nat) (v : α) : List α :=
  xs.take n ++ List.replicate (n - xs.length) v

/-- Field `vertex_block_size_ = (G.num_nodes() / world_size) + 1`. -/
def vertex_block_size_ (num_nodes world_size : Nat) : Nat := num_nodes / world_size + 1

/-- What is fixed during one run: the graph, the number of ranks, the number of
CPU workers of each rank and the sample range `[B, E)` of every rank.  The rounds
of `exec` are modelled for engines built with CPU workers only; the frontier
region of an engine that also has GPU workers is `workers_build_frontier`. -/
structure Config (M : Type) where
  G : Graph M
  world_size : Nat
  cpu_workers : Nat
  samples : Nat → List M

/-- Block size of a run. -/
def Config.bs {M : Type} (cfg : Config M) : Nat :=
  vertex_block_size_ cfg.G.num_nodes cfg.world_size

/-- Constructor `SeedSelectionEngine`: both score buffers get
`vertex_block_size_` zero entries, the frontier cache and `S_` are empty. -/
def engine_new {M : Type} (cfg : Config M) : Engine :=
  { local_count_ := vector_resize [] cfg.bs 0
    global_count_ := vector_resize [] cfg.bs 0
    frontier_cache_ := []
    S_ := ∅ }

/-- Interleavings chosen by the runtime: for every round and rank the order of
the claims in the frontier region, and for every round, rank, block step `p` and
sample the order of the claims in the counters region. -/
structure Schedule where
  frontier : Nat → Nat → List Nat
  counters : Nat → Nat → Nat → Nat → List Nat

/-! ## CPU counting worker -/

/-- One iteration of the loop of `HCCPUCountingWorker::batch_frontier`: resize
the slot to `num_nodes` and run the traversal from `S_` on it. -/
def frontier_update {M : Type} (G : Graph M) (samples : List M) (S : Finset Nat)
    (first offset : Nat) (fc : List (List Bool)) (i : Nat) : List (List Bool) :=
  match samples[first + i]? with
  | none => fc
  | some m =>
    fc.set (offset + i)
      (G.BFS_seeds m S (vector_resize (fc.getD (offset + i) []) G.num_nodes false))

/-- Method `HCCPUCountingWorker::batch_frontier(B, E, offset)`, with the
iterators given as positions in the sample range. -/
def batch_frontier {M : Type} (G : Graph M) (samples : List M) (S : Finset Nat)
    (fc : List (List Bool)) (first last offset : Nat) : List (List Bool) :=
  (List.range (last - first)).foldl (frontier_update G samples S first offset) fc

/-- Method `HCCPUCountingWorker::build_frontier`: every claimed batch is handed
to `batch_frontier`. -/
def build_frontier {M : Type} (G : Graph M) (pool sched : List Nat) (samples : List M)
    (S : Finset Nat) (fc : List (List Bool)) : List (List Bool) :=
  (phase_claims samples.length pool sched).foldl
    (fun fc a =>
      let first := a.1
      let last := if first + a.2 > samples.length then samples.length else first + a.2
      batch_frontier G samples S fc first last a.1)
    fc

/-- Value of `count` added for vertex `v` by `batch_counters` when `v` is not in
`S_`: `base`, unless `frontier_cache_[sample_id][v]` is false, in which case it is
the result of the traversal seeded at `v`. -/
def marginal {M : Type} (G : Graph M) (fc : List (List Bool)) (sample_id base : Nat)
    (eMask : M) (v : Nat) : Int :=
  if (fc.getD sample_id []).getD v false then (base : Int)
  else G.BFS_vertex eMask v (fc.getD sample_id [])

/-- One iteration of the loop of `HCCPUCountingWorker::batch_counters`. -/
def count_update {M : Type} (G : Graph M) (S : Finset Nat) (fc : List (List Bool))
    (sample_id base : Nat) (eMask : M) (count_ : List Int) (v : Nat) : List Int :=
  if v ∈ S then count_
  else
    count_.set (v % count_.length)
      (count_.getD (v % count_.length) 0 + marginal G fc sample_id base eMask v)

/-- Method `HCCPUCountingWorker::batch_counters(B, E, sample_id, base, eMask)`. -/
def batch_counters {M : Type} (G : Graph M) (S : Finset Nat) (fc : List (List Bool))
    (count_ : List Int) (B E : Nat) (sample_id base : Nat) (eMask : M) : List Int :=
  (List.range' B (E - B)).foldl (count_update G S fc sample_id base eMask) count_

/-- Method `HCCPUCountingWorker::build_counters`.  The loop claims while
`offset < (E - B)`, the difference being the unsigned one; `first = B + offset` and
`last = first + batch_size_` are `size_t` values, `last` is replaced by `E` when it
exceeds `E`, and both are converted to vertex ids when handed to
`batch_counters`. -/
def build_counters {M : Type} (G : Graph M) (pool sched : List Nat) (S : Finset Nat)
    (fc : List (List Bool)) (count_ : List Int) (B E : Nat) (sample_id base : Nat)
    (eMask : M) : List Int :=
  (phase_claims (vertex_distance B E) pool sched).foldl
    (fun cnt a =>
      let first := B + a.1
      let last := if first + a.2 > E then E else first + a.2
      batch_counters G S fc cnt (vertex_narrow first) (vertex_narrow last) sample_id base
        eMask)
    count_

/-- What `build_counters` of CPU workers amounts to on a range whose start `B`
exceeds its end `E`: the claims run up to `2 ^ 32 - B + E`, and a claim whose
`first = B + offset` reaches `2 ^ 32` is converted to the vertex id
`f = B + offset - 2 ^ 32 < E`, so that `batch_counters` counts `[f, E)` again. -/
def wrapped_counters {M : Type} (G : Graph M) (S : Finset Nat) (fc : List (List Bool))
    (count_ : List Int) (B E : Nat) (sample_id base : Nat) (eMask : M) : List Int :=
  (List.range E).foldl
    (fun acc f =>
      if (vertex_modulus - B + f) % cpu_batch_size_ = 0 then
        batch_counters G S fc acc f E sample_id base eMask
      else acc)
    count_

/-! ## `SeedSelectionEngine::exec` -/

/-- Entry of `exec`: `frontier_cache_.resize(std::distance(B, E))`. -/
def exec_enter {M : Type} (cfg : Config M) (rank : Nat) (e : Engine) : Engine :=
  { e with frontier_cache_ := vector_resize e.frontier_cache_ (cfg.samples rank).length [] }

/-- Frontier phase of round `i` on one rank. -/
def frontier_phase {M : Type} (cfg : Config M) (σ : Schedule) (i rank : Nat) (e : Engine) :
    Engine :=
  { e with
    frontier_cache_ :=
      build_frontier cfg.G (cpu_pool cfg.cpu_workers) (σ.frontier i rank) (cfg.samples rank)
        e.S_ e.frontier_cache_ }

/-- Body of the loop over the samples for one block: `base` is the number of
true entries of the sample's frontier, then the counters region runs. -/
def count_sample {M : Type} (cfg : Config M) (σ : Schedule) (i rank p : Nat)
    (fc : List (List Bool)) (S : Finset Nat) (start end_ : Nat)
    (cnt : List Int) (sample_id : Nat) : List Int :=
  match (cfg.samples rank)[sample_id]? with
  | none => cnt
  | some itr =>
    let base := (fc.getD sample_id []).count true
    build_counters cfg.G (cpu_pool cfg.cpu_workers) (σ.counters i rank p sample_id) S fc cnt
      start end_ sample_id base itr

/-- First vertex of a block: `start = current_block * vertex_block_size_`. -/
def block_start (bs current_block : Nat) : Nat := current_block * bs

/-- End of a block: `end = std::min(start + vertex_block_size_, G_.num_nodes())`. -/
def block_end (bs num_nodes current_block : Nat) : Nat :=
  min (block_start bs current_block + bs) num_nodes

/-- The local score buffer after the loop over all samples for block step `p`,
just before `MPI_Accumulate`. -/
def count_block {M : Type} (cfg : Config M) (σ : Schedule) (i rank : Nat)
    (fc : List (List Bool)) (S : Finset Nat) (local_count : List Int) (p : Nat) :
    List Int :=
  let current_block := (p + rank) % cfg.world_size
  let start := block_start cfg.bs current_block
  let end_ := block_end cfg.bs cfg.G.num_nodes current_block
  (List.range (cfg.samples rank).length).foldl
    (count_sample cfg σ i rank p fc S start end_) local_count

/-- The loop over the blocks on one rank: the accumulate operations issued, as
`(target rank, origin buffer)` in program order, and the local buffer left. -/
def counting_phase {M : Type} (cfg : Config M) (σ : Schedule) (i rank : Nat) (e : Engine) :
    List (Nat × List Int) × List Int :=
  (List.range cfg.world_size).foldl
    (fun acc p =>
      let cnt := count_block cfg σ i rank e.frontier_cache_ e.S_ acc.2 p
      (acc.1 ++ [((p + rank) % cfg.world_size, cnt.take cfg.bs)],
        List.replicate cnt.length 0))
    ([], e.local_count_)

/-- Effect of one `MPI_Accumulate(..., MPI_SUM, win)` on the windows: the origin
buffer is added element by element to `global_count_` of the target rank. -/
def MPI_Accumulate (owned : Nat → List Int) (op : Nat × List Int) : Nat → List Int :=
  Function.update owned op.1 (List.zipWith (· + ·) (owned op.1) op.2)

/-- The windows after the closing `MPI_Win_fence`, when the operations of the
epoch took effect in the order `ops`. -/
def fence (ops : List (Nat × List Int)) (owned : Nat → List Int) : Nat → List Int :=
  ops.foldl MPI_Accumulate owned

/-- State of every rank. -/
abbrev World := Nat → Engine

/-- All ranks after their frontier phase of round `i`. -/
def after_frontier {M : Type} (cfg : Config M) (σ : Schedule) (i : Nat) (w : World) : World :=
  fun r => frontier_phase cfg σ i r (w r)

/-- Accumulate operations of round `i` of all ranks, rank by rank. -/
def round_ops {M : Type} (cfg : Config M) (σ : Schedule) (i : Nat) (w : World) :
    List (Nat × List Int) :=
  (List.range cfg.world_size).flatMap
    (fun r => (counting_phase cfg σ i r (after_frontier cfg σ i w r)).1)

/-- All ranks after the `MPI_Win_fence` that closes the counting phase of round
`i`, when the accumulates took effect in the order `ops`. -/
def after_fence_with {M : Type} (cfg : Config M) (σ : Schedule) (i : Nat) (w : World)
    (ops : List (Nat × List Int)) : World :=
  fun r =>
    { after_frontier cfg σ i w r with
      local_count_ := (counting_phase cfg σ i r (after_frontier cfg σ i w r)).2
      global_count_ := fence ops (fun q => (after_frontier cfg σ i w q).global_count_) r }

/-- All ranks after the closing fence of round `i`. -/
def after_fence {M : Type} (cfg : Config M) (σ : Schedule) (i : Nat) (w : World) : World :=
  after_fence_with cfg σ i w (round_ops cfg σ i w)

/-- Loop of `std::max_element` after its first element: `largest` is replaced
only when `*largest < *first`. -/
def max_element_loop : List Int → Nat → Int → Nat → Nat
  | [], _, _, largest => largest
  | x :: xs, first, best, largest =>
    if best < x then max_element_loop xs (first + 1) x first
    else max_element_loop xs (first + 1) best largest

/-- Position returned by `std::max_element`, as a distance from `begin()`; on an
empty range it is `end()`. -/
def max_element (xs : List Int) : Nat :=
  match xs with
  | [] => 0
  | x :: rest => max_element_loop rest 1 x 0

/-- The pair `local` of a rank: `count = global_count_[v]` and
`index = rank * vertex_block_size_ + v` for `v` the position of the maximum. -/
def proposal (bs rank : Nat) (e : Engine) : Int × Nat :=
  let v := max_element e.global_count_
  (e.global_count_.getD v 0, rank * bs + v)

/-- Operator `MPI_MAXLOC` of the MPI standard on `(value, index)` pairs: the
larger value wins, and on equal values the smaller index. -/
def MAXLOC (a b : Int × Nat) : Int × Nat :=
  if b.1 < a.1 then a
  else if a.1 < b.1 then b
  else (a.1, min a.2 b.2)

/-- Result of `MPI_Allreduce(..., MPI_MAXLOC, ...)` over the pairs of the ranks
`0, 1, ...`. -/
def MPI_Allreduce_MAXLOC (ps : List (Int × Nat)) : Int × Nat :=
  match ps with
  | [] => (0, 0)
  | p :: rest => rest.foldl MAXLOC p

/-- The pair `global` of a round, from the state of all ranks after the fence. -/
def global_best {M : Type} (cfg : Config M) (w : World) : Int × Nat :=
  MPI_Allreduce_MAXLOC ((List.range cfg.world_size).map (fun r => proposal cfg.bs r (w r)))

/-- The loop `for i < global_count_.size()` that zeroes `local_count_[i]`. -/
def zero_first (k : Nat) (xs : List Int) : List Int :=
  List.replicate (min k xs.length) 0 ++ xs.drop k

/-- End of a round on every rank: both buffers are zeroed, every frontier slot
is resized to 0 and `global.index` is inserted into `S_`. -/
def select_and_commit {M : Type} (cfg : Config M) (w : World) : World :=
  fun r =>
    { local_count_ := zero_first (w r).global_count_.length (w r).local_count_
      global_count_ := List.replicate (w r).global_count_.length 0
      frontier_cache_ := (w r).frontier_cache_.map (fun slot => vector_resize slot 0 false)
      S_ := insert (global_best cfg w).2 (w r).S_ }

/-- One iteration `i` of the loop of `exec` on all ranks. -/
def round {M : Type} (cfg : Config M) (σ : Schedule) (i : Nat) (w : World) : World :=
  select_and_commit cfg (after_fence cfg σ i w)

/-- All ranks at the start of iteration `i` of the loop of `exec`. -/
def exec_loop {M : Type} (cfg : Config M) (σ : Schedule) (w : World) : Nat → World
  | 0 => w
  | i + 1 => round cfg σ i (exec_loop cfg σ w i)

/-- All ranks when `exec` is entered on freshly constructed engines. -/
def fresh_world {M : Type} (cfg : Config M) : World :=
  fun r => exec_enter cfg r (engine_new cfg)

/-- The set returned by `exec(B, E, k)` on rank `rank`, on fresh engines. -/
def exec {M : Type} (cfg : Config M) (σ : Schedule) (k rank : Nat) : Finset Nat :=
  (exec_loop cfg σ (fresh_world cfg) k rank).S_

/-- The vertex inserted into `S_` by iteration `i`. -/
def selected {M : Type} (cfg : Config M) (σ : Schedule) (i : Nat) : Nat :=
  (global_best cfg (after_fence cfg σ i (exec_loop cfg σ (fresh_world cfg) i))).2

/-- Sample count of a rank in `HillClimbing`: `CFG.samples /= world_size`. -/
def HillClimbing_samples (samples world_size : Nat) : Nat := samples / world_size

/-! ## Scores that a round is meant to compute -/

/-- Contribution computed for vertex `v` from sample `sample_id` of a rank whose
frontier cache is `fc`: zero when `v` is in `S` or is not a vertex, otherwise the
marginal value with `base` the number of true entries of the sample's frontier. -/
def contribution {M : Type} (G : Graph M) (samples : List M) (fc : List (List Bool))
    (S : Finset Nat) (sample_id v : Nat) : Int :=
  match samples[sample_id]? with
  | none => 0
  | some eMask =>
    if v ∈ S ∨ G.num_nodes ≤ v then 0
    else marginal G fc sample_id ((fc.getD sample_id []).count true) eMask v

/-- Sum of the contributions of all samples of one rank to vertex `v`. -/
def rank_score {M : Type} (G : Graph M) (samples : List M) (fc : List (List Bool))
    (S : Finset Nat) (v : Nat) : Int :=
  ∑ s ∈ Finset.range samples.length, contribution G samples fc S s v

/-- Sum over all ranks and all their samples of the contributions to vertex `v`
in round `i`, the frontier caches being those left by the frontier phase. -/
def true_score {M : Type} (cfg : Config M) (σ : Schedule) (i : Nat) (w : World) (S : Finset Nat)
    (v : Nat) : Int :=
  ∑ q ∈ Finset.range cfg.world_size,
    rank_score cfg.G (cfg.samples q) (after_frontier cfg σ i w q).frontier_cache_ S v

/-! ## A concrete graph for instances -/

/-- A graph with `n` vertices in which no edge is ever live: the traversal from
`S` marks the seeds, and the traversal seeded at `v` counts the marked vertices
and `v`. -/
def edgeless_graph (n : Nat) : Graph Unit :=
  { num_nodes := n
    BFS_seeds := fun _ S visited =>
      (List.range visited.length).map (fun u => visited.getD u false || decide (u ∈ S))
    BFS_vertex := fun _ v visited =>
      (visited.count true : Int) + (if visited.getD v false then 0 else 1) }

/-- A run on the edgeless graph in which every rank holds `num_samples` samples. -/
def edgeless_config (n world_size cpu_workers num_samples : Nat) : Config Unit :=
  { G := edgeless_graph n
    world_size := world_size
    cpu_workers := cpu_workers
    samples := fun _ => List.replicate num_samples () }

/-! ## A graph given by an edge list, and the chain scenario -/

/-- Edges of `edges` whose flag in the sample `mask` is true. -/
def live_edges (edges : List (Nat × Nat)) (mask : List Bool) : List (Nat × Nat) :=
  (edges.zip mask).filterMap (fun em => if em.2 then some em.1 else none)

/-- One sweep of a traversal: a vertex becomes marked when a live edge leads to it
from a marked vertex. -/
def reach_sweep (live : List (Nat × Nat)) (visited : List Bool) : List Bool :=
  (List.range visited.length).map
    (fun u => visited.getD u false || live.any (fun e => visited.getD e.1 false && e.2 == u))

/-- Vertices marked after `fuel` sweeps. -/
def reach_closure (live : List (Nat × Nat)) : Nat → List Bool → List Bool
  | 0, visited => visited
  | fuel + 1, visited => reach_closure live fuel (reach_sweep live visited)

/-- Modelled from the spec: the breadth-first primitive `bfs(edge_mask, seeds) ->
reachable_set` of the graph contract, which is outside these sources, for a graph
given by its edge list.  The traversal from `S` marks in `visited` every vertex
reachable from a seed over live edges; the traversal seeded at `v` returns the
size of the set reachable from `v` over live edges. -/
def edge_list_graph (n : Nat) (edges : List (Nat × Nat)) : Graph (List Bool) :=
  { num_nodes := n
    BFS_seeds := fun mask S visited =>
      reach_closure (live_edges edges mask) visited.length
        ((List.range visited.length).map (fun u => visited.getD u false || decide (u ∈ S)))
    BFS_vertex := fun mask v visited =>
      (((reach_closure (live_edges edges mask) visited.length
        ((List.range visited.length).map (fun u => decide (u = v)))).count true : Nat) : Int) }

/-- The directed chain `0 -> 1 -> 2 -> 3`. -/
def chain_edges : List (Nat × Nat) := [(0, 1), (1, 2), (2, 3)]

/-- Scenario of the chain: 4 vertices, one rank, one CPU worker, and a single
sample in which all three edges are live. -/
def chain_config : Config (List Bool) :=
  { G := edge_list_graph 4 chain_edges
    world_size := 1
    cpu_workers := 1
    samples := fun _ => [[true, true, true]] }

/-- The interleaving in which no claim is scheduled explicitly: every worker
makes its attempts in the completion of the region. -/
def idle_schedule : Schedule := { frontier := fun _ _ => [], counters := fun _ _ _ _ => [] }

/-! ## GPU counting worker: decoding of the visited bitmap -/

/-- Number of bits of an `int`, `8 * sizeof(int)`, with `sizeof(int) = 4`. -/
def int_bits : Nat := 8 * 4

/-- Value `m = 1 << (v % (8 * sizeof(int)))`, as the bit pattern of an `int`. -/
def bit_mask (v : Nat) : Nat := (1 <<< (v % int_bits)) % 2 ^ int_bits

/-- Operator `&&` on two `int` operands, as the `int` it converts to: 1 when both
operands are non-zero, 0 otherwise. -/
def logical_and (a b : Nat) : Nat := if a ≠ 0 ∧ b ≠ 0 then 1 else 0

/-- One iteration of the decoding loop of `HCGPUCountingWorker::batch_frontier`:
`if ((visited_[v / (8 * sizeof(int))] && m) == 1) frontier_cache_[offset][v] = true`.
The words of `visited_` are given by their bit patterns. -/
def gpu_decode_step (visited_ : List Nat) (slot : List Bool) (v : Nat) : List Bool :=
  if logical_and (visited_.getD (v / int_bits) 0) (bit_mask v) = 1 then slot.set v true
  else slot

/-- One iteration of the loop over the samples of
`HCGPUCountingWorker::batch_frontier`: the slot is resized to `num_nodes`, the
solver's `traverse` from the seeds leaves the bitmap in `visited_`, and the bitmap
is decoded into the slot.  The solver is outside these sources: `traverse` gives
the bitmap it returns for a sample and a seed set. -/
def gpu_frontier_update {M : Type} (num_nodes : Nat) (traverse : M → Finset Nat → List Nat)
    (samples : List M) (S : Finset Nat) (first offset : Nat) (fc : List (List Bool))
    (i : Nat) : List (List Bool) :=
  match samples[first + i]? with
  | none => fc
  | some m =>
    fc.set (offset + i)
      ((List.range num_nodes).foldl (gpu_decode_step (traverse m S))
        (vector_resize (fc.getD (offset + i) []) num_nodes false))

/-- Method `HCGPUCountingWorker::batch_frontier(B, E, offset)`, with the iterators
given as positions in the sample range. -/
def gpu_batch_frontier {M : Type} (num_nodes : Nat) (traverse : M → Finset Nat → List Nat)
    (samples : List M) (S : Finset Nat) (fc : List (List Bool)) (first last offset : Nat) :
    List (List Bool) :=
  (List.range (last - first)).foldl
    (gpu_frontier_update num_nodes traverse samples S first offset) fc

/-- Whether the bit of vertex `v` is set in a visited bitmap: bit `v mod 32` of
word `v / 32`. -/
def vertex_bit (visited : List Nat) (v : Nat) : Bool :=
  (visited.getD (v / int_bits) 0).testBit (v % int_bits)

/-- The reachability vector of length `num_nodes` that a visited bitmap stands
for. -/
def bitmap_vector (num_nodes : Nat) (visited : List Nat) : List Bool :=
  (List.range num_nodes).map (vertex_bit visited)

/-! ## Engines with CPU and GPU workers: the frontier region -/

/-- The two classes derived from `HCWorker`: `HCCPUCountingWorker` and
`HCGPUCountingWorker`. -/
inductive WorkerKind where
  | cpu
  | gpu
deriving DecidableEq

/-- Constant `batch_size_` of the class of a worker. -/
def WorkerKind.batch_size_ : WorkerKind → Nat
  | WorkerKind.cpu => cpu_batch_size_
  | WorkerKind.gpu => gpu_batch_size_

/-- Vector `workers_` filled by the constructor of `SeedSelectionEngine`: the CPU
workers first, then the GPU workers.  OpenMP thread `t` of a parallel region runs
`workers_[t]`. -/
def workers_ (cpu_workers gpu_workers : Nat) : List WorkerKind :=
  List.replicate cpu_workers WorkerKind.cpu ++ List.replicate gpu_workers WorkerKind.gpu

/-- Batch sizes of the workers, thread by thread. -/
def worker_pool (workers : List WorkerKind) : List Nat := workers.map WorkerKind.batch_size_

/-- One evaluation of the loop condition by thread `w`, as `fetch_add_claim`; next
to the cursor, the class of the worker of every successful claim is kept, in claim
order. -/
def worker_claim (L : Nat) (workers : List WorkerKind) (s : Cursor × List WorkerKind)
    (w : Nat) : Cursor × List WorkerKind :=
  match workers[w]? with
  | none => s
  | some kind =>
    (fetch_add_claim L (worker_pool workers) s.1 w,
      if w ∈ s.1.stopped then s.2
      else if s.1.mpmc_head < L then s.2 ++ [kind]
      else s.2)

/-- Successful claims of one parallel region with the class of the claiming
worker, in claim order; as in `phase_claims`, the interleaving `sched` is followed
by the remaining attempts of every worker. -/
def worker_claims (L : Nat) (workers : List WorkerKind) (sched : List Nat) :
    List ((Nat × Nat) × WorkerKind) :=
  let s := (sched ++ drain L (worker_pool workers)).foldl (worker_claim L workers)
    (cursor_reset, [])
  s.1.log.zip s.2

/-- The frontier region of `exec`, in which every thread runs
`workers_[rank]->build_frontier(mpmc_head_, B, E)`: each claimed batch is handed to
`batch_frontier` of the class of the worker that claimed it.  The GPU solver is
outside these sources: `traverse` gives the bitmap it returns for a sample and a
seed set. -/
def workers_build_frontier {M : Type} (G : Graph M) (traverse : M → Finset Nat → List Nat)
    (workers : List WorkerKind) (sched : List Nat) (samples : List M) (S : Finset Nat)
    (fc : List (List Bool)) : List (List Bool) :=
  (worker_claims samples.length workers sched).foldl
    (fun fc a =>
      let first := a.1.1
      let last := if first + a.1.2 > samples.length then samples.length else first + a.1.2
      match a.2 with
      | WorkerKind.cpu => batch_frontier G samples S fc first last a.1.1
      | WorkerKind.gpu => gpu_batch_frontier G.num_nodes traverse samples S fc first last a.1.1)
    fc

/-! ## Invariants used in the proofs -/

/-- Cursor invariant: the batches claimed so far, in claim order, enumerate
`0, 1, ..., min mpmc_head L - 1` without gap or repetition; every logged claim
started below `L`; and once a worker has left, the counter has reached `L`. -/
def CursorInv (L : Nat) (c : Cursor) : Prop :=
  ((c.log.map (fun a => batch_indices (batch_bounds L a))).flatten
      = List.range (min c.mpmc_head L))
  ∧ (c.stopped ≠ [] → L ≤ c.mpmc_head)
  ∧ (∀ a ∈ c.log, a.1 < L)

/-- Invariant of the cursor of a pool of CPU workers: the successful claims are
the multiples of `batch_size_` in increasing order, and the counter has advanced
by `batch_size_` per claim as long as no worker has left. -/
def UniformInv (L : Nat) (c : Cursor) : Prop :=
  c.log = (List.range c.log.length).map (fun i => (cpu_batch_size_ * i, cpu_batch_size_))
  ∧ (c.stopped = [] → c.mpmc_head = cpu_batch_size_ * c.log.length)
  ∧ (c.stopped ≠ [] → L ≤ cpu_batch_size_ * c.log.length)

/-- No block of the run starts beyond the last vertex, and the vertex count fits
the vertex type. -/
def BlocksFit {M : Type} (cfg : Config M) : Prop :=
  cfg.G.num_nodes < vertex_modulus
  ∧ ∀ cb, cb < cfg.world_size → block_start cfg.bs cb ≤ cfg.G.num_nodes

/-- State of a rank at the start of a round: both score buffers hold
`vertex_block_size_` zeros and every frontier slot is empty. -/
def RoundStart {M : Type} (cfg : Config M) (w : World) : Prop :=
  ∀ r, (w r).local_count_ = List.replicate cfg.bs 0
    ∧ (w r).global_count_ = List.replicate cfg.bs 0
    ∧ (w r).frontier_cache_ = List.replicate (cfg.samples r).length []

/-- All ranks hold the same seed set `S`, which has `i` elements, all of them
vertices. -/
def SeedsAgree {M : Type} (cfg : Config M) (i : Nat) (w : World) : Prop :=
  ∃ S : Finset Nat, (∀ r, (w r).S_ = S) ∧ S.card = i ∧ ∀ v ∈ S, v < cfg.G.num_nodes

/-! # Theorems -/

/-! ## Task cursor -/

theorem batch_bounds_snd (L : Nat) (a : Nat × Nat) :
    (batch_bounds L a).2 = min (a.1 + a.2) L := by
  unfold batch_bounds
  by_cases h : a.1 + a.2 > L
  · simp [h]; omega
  · simp [h]; omega

theorem cursorInv_reset (L : Nat) : CursorInv L cursor_reset := by
  simp [CursorInv, cursor_reset]

theorem cursorInv_claim (L : Nat) (pool : List Nat) (c : Cursor) (w : Nat)
    (h : CursorInv L c) : CursorInv L (fetch_add_claim L pool c w) := by
  obtain ⟨h1, h2, h3⟩ := h
  unfold fetch_add_claim
  cases hw : pool[w]? with
  | none => exact ⟨h1, h2, h3⟩
  | some b =>
    simp only
    by_cases hs : w ∈ c.stopped
    · simp only [hs, if_true]; exact ⟨h1, h2, h3⟩
    · simp only [hs, if_false]
      by_cases hl : c.mpmc_head < L
      · simp only [hl, if_true]
        refine ⟨?_, fun hne => ?_, ?_⟩
        · simp only [List.map_append, List.flatten_append, h1, List.map_cons, List.map_nil,
            List.flatten_cons, List.flatten_nil, List.append_nil]
          simp only [batch_indices, batch_bounds_snd]
          have e1 : min c.mpmc_head L = c.mpmc_head := by omega
          rw [e1, List.range_eq_range', List.range_eq_range']
          have := List.range'_append 0 c.mpmc_head (min (c.mpmc_head + b) L - c.mpmc_head) 1
          simp only [Nat.zero_add, Nat.one_mul] at this
          simp only [batch_bounds]
          rw [this]
          congr 1
          omega
        · have := h2 hne
          omega
        · intro a ha
          rcases List.mem_append.1 ha with ha | ha
          · exact h3 a ha
          · simp only [List.mem_singleton] at ha
            subst ha
            exact hl
      · simp only [hl, if_false]
        refine ⟨?_, fun _ => by simp only; omega, h3⟩
        rw [h1]
        congr 1
        simp only
        omega

theorem cursorInv_foldl (L : Nat) (pool : List Nat) (sched : List Nat) (c : Cursor)
    (h : CursorInv L c) : CursorInv L (sched.foldl (fetch_add_claim L pool) c) := by
  induction sched generalizing c with
  | nil => exact h
  | cons w ws ih => exact ih _ (cursorInv_claim L pool c w h)

theorem cursorInv_run (L : Nat) (pool : List Nat) (sched : List Nat) :
    CursorInv L (run_claims L pool sched) :=
  cursorInv_foldl L pool sched _ (cursorInv_reset L)

theorem run_claims_snoc (L : Nat) (pool sched : List Nat) (a : Nat) :
    run_claims L pool (sched ++ [a]) = fetch_add_claim L pool (run_claims L pool sched) a := by
  simp [run_claims, List.foldl_append]

/-- Effect of one attempt on the counter and on the set of stopped workers. -/
theorem fetch_add_claim_step (L : Nat) (pool : List Nat) (hb : ∀ b ∈ pool, 1 ≤ b)
    (c : Cursor) (a w : Nat) :
    c.mpmc_head ≤ (fetch_add_claim L pool c a).mpmc_head
    ∧ (w ∈ c.stopped → w ∈ (fetch_add_claim L pool c a).stopped)
    ∧ (a = w → w < pool.length → w ∉ (fetch_add_claim L pool c a).stopped →
        c.mpmc_head < L ∧ c.mpmc_head + 1 ≤ (fetch_add_claim L pool c a).mpmc_head) := by
  unfold fetch_add_claim
  cases hw : pool[a]? with
  | none =>
    refine ⟨le_refl _, fun h => h, fun e hlt _ => ?_⟩
    subst e
    rw [List.getElem?_eq_none_iff] at hw
    omega
  | some b =>
    have hb1 : 1 ≤ b := hb b (List.getElem?_mem hw)
    simp only
    by_cases hs : a ∈ c.stopped
    · simp only [hs, if_true]
      refine ⟨le_refl _, fun h => h, fun e _ hn => ?_⟩
      subst e
      exact absurd hs hn
    · simp only [hs, if_false]
      by_cases hl : c.mpmc_head < L
      · simp only [hl, if_true]
        exact ⟨by omega, fun h => h, fun _ _ _ => ⟨trivial, by omega⟩⟩
      · simp only [hl, if_false]
        refine ⟨by omega, fun h => List.mem_cons_of_mem _ h, fun e _ hn => ?_⟩
        subst e
        exact absurd (List.mem_cons_self _ _) hn

/-- A worker still in its loop has made at most `min mpmc_head L` attempts. -/
theorem attempts_le (L : Nat) (pool : List Nat) (hb : ∀ b ∈ pool, 1 ≤ b) (w : Nat)
    (hw : w < pool.length) (sched : List Nat) :
    w ∉ (run_claims L pool sched).stopped →
      sched.count w ≤ min (run_claims L pool sched).mpmc_head L := by
  induction sched using List.reverseRecOn with
  | nil => intro _; simp
  | append_singleton l a ih =>
    intro hn
    rw [run_claims_snoc] at hn ⊢
    obtain ⟨s1, s2, s3⟩ := fetch_add_claim_step L pool hb (run_claims L pool l) a w
    have hn0 : w ∉ (run_claims L pool l).stopped := fun h => hn (s2 h)
    have h0 := ih hn0
    rw [List.count_append]
    by_cases e : a = w
    · obtain ⟨t1, t2⟩ := s3 e hw hn
      subst e
      simp only [List.count_singleton_self]
      omega
    · have : List.count w [a] = 0 := by
        simp [List.count_singleton, e]
      omega

/-- A worker that made more than `L` attempts has left its loop. -/
theorem stopped_of_attempts (L : Nat) (pool : List Nat) (hb : ∀ b ∈ pool, 1 ≤ b) (w : Nat)
    (hw : w < pool.length) (sched : List Nat) (hc : L < sched.count w) :
    w ∈ (run_claims L pool sched).stopped := by
  by_contra hn
  have := attempts_le L pool hb w hw sched hn
  omega

/-- When a worker has left its loop the logged batches enumerate `0..L-1`. -/
theorem log_flatten_of_stopped (L : Nat) (pool sched : List Nat)
    (hs : (run_claims L pool sched).stopped ≠ []) :
    (((run_claims L pool sched).log.map
        (fun a => batch_indices (batch_bounds L a))).flatten) = List.range L := by
  obtain ⟨h1, h2, _⟩ := cursorInv_run L pool sched
  rw [h1]
  congr 1
  have := h2 hs
  omega

theorem vertex_block_size_pos (n ws : Nat) : 1 ≤ vertex_block_size_ n ws := by
  unfold vertex_block_size_; exact Nat.le_add_left 1 _

theorem lt_world_mul_block (n ws : Nat) (hws : 1 ≤ ws) : n < ws * vertex_block_size_ n ws := by
  unfold vertex_block_size_
  exact Nat.lt_mul_div_succ n (by omega)

theorem ceil_of_dvd (n ws : Nat) (hws : 1 ≤ ws) (hd : ws ∣ n) :
    ⌈(n : ℚ) / (ws : ℚ)⌉₊ = n / ws := by
  obtain ⟨q, rfl⟩ := hd
  have h0 : (ws : ℚ) ≠ 0 := by positivity
  have : ws * q / ws = q := Nat.mul_div_cancel_left q (by omega)
  rw [this]
  push_cast
  rw [mul_div_cancel_left₀ _ h0]
  exact Nat.ceil_natCast q

theorem ceil_of_not_dvd (n ws : Nat) (hws : 1 ≤ ws) (hd : ¬ ws ∣ n) :
    ⌈(n : ℚ) / (ws : ℚ)⌉₊ = n / ws + 1 := by
  have h0 : (0 : ℚ) < (ws : ℚ) := by positivity
  rw [Nat.ceil_eq_iff (Nat.succ_ne_zero _)]
  have hm : n % ws ≠ 0 := fun h => hd (Nat.dvd_of_mod_eq_zero h)
  have e := Nat.div_add_mod n ws
  constructor
  · rw [lt_div_iff₀ h0]
    have : (n / ws + 1 - 1) * ws < n := by
      simp only [Nat.add_sub_cancel]
      have := Nat.mul_comm ws (n / ws)
      omega
    exact_mod_cast this
  · rw [div_le_iff₀ h0]
    have : n ≤ (n / ws + 1) * ws := by
      have := Nat.mod_lt n (show ws > 0 by omega)
      have e2 : (n / ws + 1) * ws = ws * (n / ws) + ws := by ring
      omega
    exact_mod_cast this

theorem length_vector_resize_nil {α : Type} (n : Nat) (v : α) :
    (vector_resize ([] : List α) n v).length = n := by
  simp [vector_resize]

/-- C2 (ownership partition).  With `bs` the block size computed for `n`
vertices and `world_size ≥ 1` ranks, every vertex `v < n` lies in the range
`[p * bs, min(p * bs + bs, n))` of the block `p = v / bs`, which is a block of
the run (`p < world_size`), and in the range of no other block; its slot
`v mod bs` is below `bs`, and block start plus slot gives `v` back. -/
theorem ownership_partition (n ws : Nat) (hws : 1 ≤ ws) (v : Nat) (hv : v < n) :
    v / vertex_block_size_ n ws < ws
    ∧ block_start (vertex_block_size_ n ws) (v / vertex_block_size_ n ws) ≤ v
    ∧ v < block_end (vertex_block_size_ n ws) n (v / vertex_block_size_ n ws)
    ∧ (∀ p, p < ws → block_start (vertex_block_size_ n ws) p ≤ v →
        v < block_end (vertex_block_size_ n ws) n p → p = v / vertex_block_size_ n ws)
    ∧ v % vertex_block_size_ n ws < vertex_block_size_ n ws
    ∧ block_start (vertex_block_size_ n ws) (v / vertex_block_size_ n ws)
        + v % vertex_block_size_ n ws = v := by
  have hbs := vertex_block_size_pos n ws
  have hlt := lt_world_mul_block n ws hws
  generalize vertex_block_size_ n ws = bs at hbs hlt
  have hdm := Nat.div_add_mod v bs
  have hml := Nat.mod_lt v (show bs > 0 by omega)
  have hcomm := Nat.mul_comm bs (v / bs)
  unfold block_end block_start
  refine ⟨?_, by omega, by omega, ?_, hml, by omega⟩
  · rw [Nat.div_lt_iff_lt_mul (by omega)]
    omega
  · intro p _ h1 h2
    symm
    apply Nat.div_eq_of_lt_le h1
    have : (p + 1) * bs = p * bs + bs := by ring
    omega

/-- Witness of C2: vertex 5 of a 7-vertex graph on 3 ranks. -/
theorem ownership_partition_witness :
    (1 ≤ 3 ∧ (5 : Nat) < 7) ∧ vertex_block_size_ 7 3 = 3
    ∧ 5 / vertex_block_size_ 7 3 < 3
    ∧ 5 % vertex_block_size_ 7 3 < vertex_block_size_ 7 3 :=
  ⟨by decide, by decide, (ownership_partition 7 3 (by decide) 5 (by decide)).1,
    (ownership_partition 7 3 (by decide) 5 (by decide)).2.2.2.2.1⟩

/-- C10 fails as stated: for 4 vertices on 2 ranks the computed block size is 3,
while `ceil(4 / 2) = 2`. -/
theorem block_size_ceiling_counterexample :
    vertex_block_size_ 4 2 = 3 ∧ ⌈((4 : ℕ) : ℚ) / ((2 : ℕ) : ℚ)⌉₊ = 2
    ∧ vertex_block_size_ 4 2 ≠ ⌈((4 : ℕ) : ℚ) / ((2 : ℕ) : ℚ)⌉₊ := by
  refine ⟨by decide, ?_, ?_⟩ <;> norm_num [vertex_block_size_]

/-- C10 as amended.  For every vertex count `n` and `world_size ≥ 1` the block
size is `floor(n / world_size) + 1`; it is the length of both score buffers of a
new engine; it equals `ceil(n / world_size)` when `world_size` does not divide
`n`, and `ceil(n / world_size) + 1` when it does. -/
theorem block_size_floor_succ {M : Type} (cfg : Config M) (hws : 1 ≤ cfg.world_size) :
    cfg.bs = cfg.G.num_nodes / cfg.world_size + 1
    ∧ (engine_new cfg).local_count_.length = cfg.bs
    ∧ (engine_new cfg).global_count_.length = cfg.bs
    ∧ (¬ cfg.world_size ∣ cfg.G.num_nodes →
        cfg.bs = ⌈(cfg.G.num_nodes : ℚ) / (cfg.world_size : ℚ)⌉₊)
    ∧ (cfg.world_size ∣ cfg.G.num_nodes →
        cfg.bs = ⌈(cfg.G.num_nodes : ℚ) / (cfg.world_size : ℚ)⌉₊ + 1) := by
  refine ⟨rfl, length_vector_resize_nil _ _, length_vector_resize_nil _ _, ?_, ?_⟩
  · intro hd
    rw [ceil_of_not_dvd _ _ hws hd]; rfl
  · intro hd
    rw [ceil_of_dvd _ _ hws hd]; rfl

/-- Witness of C10 as amended: 4 vertices on 2 ranks. -/
theorem block_size_floor_succ_witness :
    1 ≤ (edgeless_config 4 2 1 1).world_size
    ∧ (edgeless_config 4 2 1 1).bs = 4 / 2 + 1 :=
  ⟨by decide, (block_size_floor_succ (edgeless_config 4 2 1 1) (by decide)).1⟩

/-! ## A parallel region visits its range once, in order -/

theorem count_drain (L : Nat) (w : Nat) (ws : List Nat) (hw : w ∈ ws) :
    L + 1 ≤ (ws.flatMap (fun x => List.replicate (L + 1) x)).count w := by
  induction ws with
  | nil => cases hw
  | cons x xs ih =>
    rw [List.flatMap_cons, List.count_append]
    rcases List.mem_cons.1 hw with h | h
    · subst h
      rw [List.count_replicate_self]
      omega
    · have := ih h
      omega

/-- After the remaining attempts of `drain` every worker has left its loop. -/
theorem drained_stopped (L : Nat) (pool : List Nat) (hb : ∀ b ∈ pool, 1 ≤ b) (sched : List Nat)
    (w : Nat) (hw : w < pool.length) :
    w ∈ (run_claims L pool (sched ++ drain L pool)).stopped := by
  apply stopped_of_attempts L pool hb w hw
  rw [List.count_append]
  have := count_drain L w (List.range pool.length) (List.mem_range.2 hw)
  unfold drain
  omega

/-- The claims of a completed region enumerate `0..L-1` in claim order. -/
theorem phase_claims_flatten (L : Nat) (pool : List Nat) (hb : ∀ b ∈ pool, 1 ≤ b)
    (hp : pool ≠ []) (sched : List Nat) :
    ((phase_claims L pool sched).map (fun a => batch_indices (batch_bounds L a))).flatten
        = List.range L
    ∧ ∀ a ∈ phase_claims L pool sched, a.1 < L := by
  have hpos : 0 < pool.length := List.length_pos.2 hp
  have hs := drained_stopped L pool hb sched 0 hpos
  exact ⟨log_flatten_of_stopped L pool _ (List.ne_nil_of_mem hs),
    (cursorInv_run L pool _).2.2⟩

/-- Folding a per-item step over the claimed batches `[B + offset, last)` is the
same as folding it over the whole range `[B, E)` in increasing order. -/
theorem foldl_claims_eq_range {β : Type} (f : β → Nat → β) (B E : Nat)
    (claims : List (Nat × Nat)) (hlt : ∀ a ∈ claims, a.1 < E - B) (init : β) :
    claims.foldl
        (fun acc a =>
          (List.range' (B + a.1)
            ((if B + a.1 + a.2 > E then E else B + a.1 + a.2) - (B + a.1))).foldl f acc)
        init
      = (((claims.map (fun a => batch_indices (batch_bounds (E - B) a))).flatten).map
          (fun x => B + x)).foldl f init := by
  induction claims generalizing init with
  | nil => rfl
  | cons a rest ih =>
    rw [List.foldl_cons, ih (fun x hx => hlt x (List.mem_cons_of_mem _ hx))]
    rw [List.map_cons, List.flatten_cons, List.map_append, List.foldl_append]
    congr 1
    have ha := hlt a (List.mem_cons_self _ _)
    unfold batch_indices batch_bounds
    rw [List.map_add_range']
    congr 2
    simp only
    split_ifs <;> omega

/-- A completed region of workers with batch sizes at least 1 applies the step
to every item of `[B, E)` exactly once, in increasing order, whatever the
interleaving of the claims. -/
theorem region_eq_range {β : Type} (f : β → Nat → β) (B E : Nat) (pool : List Nat)
    (hb : ∀ b ∈ pool, 1 ≤ b) (hp : pool ≠ []) (sched : List Nat) (init : β) :
    (phase_claims (E - B) pool sched).foldl
        (fun acc a =>
          (List.range' (B + a.1)
            ((if B + a.1 + a.2 > E then E else B + a.1 + a.2) - (B + a.1))).foldl f acc)
        init
      = (List.range' B (E - B)).foldl f init := by
  obtain ⟨h1, h2⟩ := phase_claims_flatten (E - B) pool hb hp sched
  rw [foldl_claims_eq_range f B E _ h2, h1, List.range'_eq_map_range]

theorem cpu_pool_batch (cpu_workers : Nat) : ∀ b ∈ cpu_pool cpu_workers, 1 ≤ b := by
  intro b hb
  unfold cpu_pool at hb
  rw [List.eq_of_mem_replicate hb]
  decide

theorem cpu_pool_ne_nil (cpu_workers : Nat) (h : 1 ≤ cpu_workers) :
    cpu_pool cpu_workers ≠ [] := by
  unfold cpu_pool
  intro hn
  have := congrArg List.length hn
  simp at this
  omega

theorem cpu_pool_zero_claims (L : Nat) (sched : List Nat) :
    phase_claims L (cpu_pool 0) sched = [] := by
  unfold phase_claims run_claims
  generalize sched ++ drain L (cpu_pool 0) = l
  have : ∀ c : Cursor, l.foldl (fetch_add_claim L (cpu_pool 0)) c = c := by
    induction l with
    | nil => intro c; rfl
    | cons a rest ih =>
      intro c
      rw [List.foldl_cons]
      have : fetch_add_claim L (cpu_pool 0) c a = c := by
        simp [fetch_add_claim, cpu_pool]
      rw [this, ih]
  rw [this]
  rfl

theorem vertex_distance_of_le (B E : Nat) (h : B ≤ E) (hE : E < vertex_modulus) :
    vertex_distance B E = E - B := by
  unfold vertex_distance vertex_modulus at *
  omega

theorem vertex_distance_of_lt (B E : Nat) (h : E < B) (hB : B < vertex_modulus) :
    vertex_distance B E = vertex_modulus - B + E := by
  unfold vertex_distance vertex_modulus at *
  omega

theorem foldl_noop {α β : Type} (f : β → α → β) (l : List α) (acc : β)
    (h : ∀ x ∈ l, ∀ b, f b x = b) : l.foldl f acc = acc := by
  induction l generalizing acc with
  | nil => rfl
  | cons a rest ih =>
    rw [List.foldl_cons, h a (List.mem_cons_self _ _),
      ih acc (fun x hx => h x (List.mem_cons_of_mem _ hx))]

/-- Folding a step over the claims is folding a per-item step over the items of
the claimed batches, when each claim's step is the fold over its batch. -/
theorem foldl_claims_flatten {β : Type} (step : β → Nat × Nat → β) (h : β → Nat → β) (L : Nat)
    (claims : List (Nat × Nat))
    (hstep : ∀ a ∈ claims, ∀ acc,
      step acc a = (batch_indices (batch_bounds L a)).foldl h acc)
    (init : β) :
    claims.foldl step init
      = ((claims.map (fun a => batch_indices (batch_bounds L a))).flatten).foldl h init := by
  induction claims generalizing init with
  | nil => rfl
  | cons a rest ih =>
    rw [List.foldl_cons, hstep a (List.mem_cons_self _ _),
      ih (fun x hx => hstep x (List.mem_cons_of_mem _ hx)),
      List.map_cons, List.flatten_cons, List.foldl_append]

theorem uniformInv_claim (L n : Nat) (c : Cursor) (w : Nat) (hc : CursorInv L c)
    (hu : UniformInv L c) : UniformInv L (fetch_add_claim L (cpu_pool n) c w) := by
  obtain ⟨u1, u2, u3⟩ := hu
  unfold fetch_add_claim
  cases hw : (cpu_pool n)[w]? with
  | none => exact ⟨u1, u2, u3⟩
  | some b =>
    have hb : b = cpu_batch_size_ := by
      unfold cpu_pool at hw
      exact List.eq_of_mem_replicate (List.getElem?_mem hw)
    subst hb
    simp only
    by_cases hs : w ∈ c.stopped
    · simp only [hs, if_true]; exact ⟨u1, u2, u3⟩
    · simp only [hs, if_false]
      by_cases hl : c.mpmc_head < L
      · simp only [hl, if_true]
        have hst : c.stopped = [] := by
          by_contra hne
          have := hc.2.1 hne
          omega
        have hh := u2 hst
        refine ⟨?_, fun _ => ?_, fun hne => absurd hst hne⟩
        · rw [List.length_append, List.length_singleton, List.range_succ, List.map_append,
            ← u1, List.map_singleton, hh]
        · show c.mpmc_head + cpu_batch_size_ = cpu_batch_size_ * (c.log ++ [_]).length
          rw [List.length_append, List.length_singleton, hh]
          unfold cpu_batch_size_
          omega
      · simp only [hl, if_false]
        refine ⟨u1, fun hnil => absurd hnil (List.cons_ne_nil _ _), fun _ => ?_⟩
        show L ≤ cpu_batch_size_ * c.log.length
        by_cases hst : c.stopped = []
        · have := u2 hst
          omega
        · exact u3 hst

theorem uniformInv_foldl (L n : Nat) (sched : List Nat) (c : Cursor) (hc : CursorInv L c)
    (hu : UniformInv L c) :
    UniformInv L (sched.foldl (fetch_add_claim L (cpu_pool n)) c) := by
  induction sched generalizing c with
  | nil => exact hu
  | cons w ws ih =>
    exact ih _ (cursorInv_claim L _ c w hc) (uniformInv_claim L n c w hc hu)

/-- The claims of a completed region of CPU workers do not depend on the
interleaving: they start at the multiples of `batch_size_` below `L`. -/
theorem phase_claims_cpu (L n : Nat) (h : 1 ≤ n) (sched : List Nat) :
    phase_claims L (cpu_pool n) sched
      = (List.range ((L + 7) / 8)).map (fun i => (cpu_batch_size_ * i, cpu_batch_size_)) := by
  have hu : UniformInv L (run_claims L (cpu_pool n) (sched ++ drain L (cpu_pool n))) :=
    uniformInv_foldl L n _ _ (cursorInv_reset L) ⟨rfl, fun _ => rfl, fun h => absurd rfl h⟩
  have hc := cursorInv_run L (cpu_pool n) (sched ++ drain L (cpu_pool n))
  have hpos : 0 < (cpu_pool n).length := List.length_pos.2 (cpu_pool_ne_nil n h)
  have hs := drained_stopped L (cpu_pool n) (cpu_pool_batch n) sched 0 hpos
  obtain ⟨u1, _, u3⟩ := hu
  have h3 := u3 (List.ne_nil_of_mem hs)
  unfold phase_claims
  generalize (run_claims L (cpu_pool n) (sched ++ drain L (cpu_pool n))) = c at *
  have hK : c.log.length = (L + 7) / 8 := by
    rcases Nat.eq_zero_or_pos c.log.length with h0 | h0
    · rw [h0] at h3 ⊢
      omega
    · have hmem : (cpu_batch_size_ * (c.log.length - 1), cpu_batch_size_)
          ∈ (List.range c.log.length).map
              (fun i => (cpu_batch_size_ * i, cpu_batch_size_)) :=
        List.mem_map.2 ⟨c.log.length - 1, List.mem_range.2 (by omega), rfl⟩
      rw [← u1] at hmem
      have := hc.2.2 _ hmem
      unfold cpu_batch_size_ at this h3
      simp only at this
      omega
  rw [u1, hK]

theorem mem_phase_claims_cpu (L n : Nat) (h : 1 ≤ n) (sched : List Nat) (a : Nat × Nat)
    (ha : a ∈ phase_claims L (cpu_pool n) sched) : a.1 % 8 = 0 ∧ a.2 = 8 ∧ a.1 < L := by
  have hlt := (phase_claims_flatten L (cpu_pool n) (cpu_pool_batch n) (cpu_pool_ne_nil n h)
    sched).2 a ha
  rw [phase_claims_cpu L n h] at ha
  obtain ⟨i, _, rfl⟩ := List.mem_map.1 ha
  exact ⟨by unfold cpu_batch_size_; simp, rfl, hlt⟩

/-- The counters region of CPU workers on a vertex range `[B, E)` with `B ≤ E` is
`batch_counters` on the whole range. -/
theorem build_counters_eq {M : Type} (G : Graph M) (cpu_workers : Nat) (h : 1 ≤ cpu_workers)
    (sched : List Nat) (S : Finset Nat) (fc : List (List Bool)) (count_ : List Int)
    (B E sample_id base : Nat) (eMask : M) (hBE : B ≤ E) (hE : E < vertex_modulus) :
    build_counters G (cpu_pool cpu_workers) sched S fc count_ B E sample_id base eMask
      = batch_counters G S fc count_ B E sample_id base eMask := by
  unfold build_counters
  rw [vertex_distance_of_le B E hBE hE]
  obtain ⟨h1, h2⟩ := phase_claims_flatten (E - B) (cpu_pool cpu_workers)
    (cpu_pool_batch cpu_workers) (cpu_pool_ne_nil cpu_workers h) sched
  rw [foldl_claims_flatten _
    (fun acc x => count_update G S fc sample_id base eMask acc (B + x)) (E - B) _ ?_, h1]
  · unfold batch_counters
    rw [List.range'_eq_map_range, List.foldl_map]
  · intro a ha acc
    have hlt := h2 a ha
    simp only
    unfold batch_counters batch_indices batch_bounds vertex_narrow
    have e1 : (B + a.1) % vertex_modulus = B + a.1 := Nat.mod_eq_of_lt (by omega)
    have e2 : (if B + a.1 + a.2 > E then E else B + a.1 + a.2) % vertex_modulus
        = (if B + a.1 + a.2 > E then E else B + a.1 + a.2) :=
      Nat.mod_eq_of_lt (by split_ifs <;> omega)
    rw [e1, e2, ← List.foldl_map (fun x => B + x)
      (count_update G S fc sample_id base eMask), List.map_add_range']
    congr 2
    simp only
    split_ifs <;> omega

/-- The counters region of CPU workers on a vertex range whose start exceeds its
end: the unsigned `E - B` wraps, the claims whose `first` stays below `2 ^ 32` do
nothing, and every claim whose `first` wraps counts `[first - 2 ^ 32, E)`. -/
theorem build_counters_wrapped {M : Type} (G : Graph M) (cpu_workers : Nat)
    (h : 1 ≤ cpu_workers) (sched : List Nat) (S : Finset Nat) (fc : List (List Bool))
    (count_ : List Int) (B E sample_id base : Nat) (eMask : M) (hEB : E < B)
    (hB : B < vertex_modulus) :
    build_counters G (cpu_pool cpu_workers) sched S fc count_ B E sample_id base eMask
      = wrapped_counters G S fc count_ B E sample_id base eMask := by
  unfold build_counters
  rw [vertex_distance_of_lt B E hEB hB]
  obtain ⟨h1, _⟩ := phase_claims_flatten (vertex_modulus - B + E) (cpu_pool cpu_workers)
    (cpu_pool_batch cpu_workers) (cpu_pool_ne_nil cpu_workers h) sched
  rw [foldl_claims_flatten _
    (fun acc x =>
      if x % 8 = 0 then
        (if vertex_modulus ≤ B + x then
          batch_counters G S fc acc (B + x - vertex_modulus) E sample_id base eMask
         else acc)
      else acc) (vertex_modulus - B + E) _ ?_, h1]
  · rw [List.range_add, List.foldl_append, foldl_noop _ (List.range (vertex_modulus - B)),
      List.foldl_map]
    · unfold wrapped_counters
      congr 1
      funext acc f
      unfold cpu_batch_size_
      have e1 : vertex_modulus ≤ B + (vertex_modulus - B + f) := by omega
      have e2 : B + (vertex_modulus - B + f) - vertex_modulus = f := by omega
      simp only [e1, if_true, e2]
    · intro x hx b
      have hx2 := List.mem_range.1 hx
      have e1 : ¬ vertex_modulus ≤ B + x := by omega
      simp only [e1, if_false, ite_self]
  · intro a ha acc
    obtain ⟨m1, m2, m3⟩ := mem_phase_claims_cpu _ cpu_workers h sched a ha
    simp only
    unfold batch_indices batch_bounds vertex_narrow
    simp only
    have hk : (if a.1 + a.2 > vertex_modulus - B + E then vertex_modulus - B + E
        else a.1 + a.2) - a.1
        = ((if a.1 + a.2 > vertex_modulus - B + E then vertex_modulus - B + E
        else a.1 + a.2) - a.1 - 1) + 1 := by
      split_ifs <;> omega
    rw [hk, List.range'_succ, List.foldl_cons, foldl_noop]
    · rw [if_pos m1, if_pos (show B + a.1 + a.2 > E by omega),
        Nat.mod_eq_of_lt (show E < vertex_modulus by omega)]
      by_cases hwrap : vertex_modulus ≤ B + a.1
      · have e : (B + a.1) % vertex_modulus = B + a.1 - vertex_modulus := by
          unfold vertex_modulus at *
          omega
        rw [if_pos hwrap, e]
      · rw [if_neg hwrap, Nat.mod_eq_of_lt (by omega)]
        unfold batch_counters
        rw [show E - (B + a.1) = 0 by omega]
        rfl
    · intro x hx b
      rw [List.mem_range'_1] at hx
      have e1 : ¬ x % 8 = 0 := by
        split_ifs at hx <;> omega
      rw [if_neg e1]

/-- Step of the frontier region on the sample at position `idx`. -/
theorem frontier_update_self {M : Type} (G : Graph M) (samples : List M) (S : Finset Nat)
    (a : Nat) (fc : List (List Bool)) (i : Nat) :
    frontier_update G samples S a a fc i = frontier_update G samples S 0 0 fc (a + i) := by
  unfold frontier_update
  simp only [Nat.zero_add]

/-- The frontier region of CPU workers updates every slot `0..num_samples-1`
once, in increasing order. -/
theorem build_frontier_eq {M : Type} (G : Graph M) (cpu_workers : Nat) (h : 1 ≤ cpu_workers)
    (sched : List Nat) (samples : List M) (S : Finset Nat) (fc : List (List Bool)) :
    build_frontier G (cpu_pool cpu_workers) sched samples S fc
      = (List.range samples.length).foldl (frontier_update G samples S 0 0) fc := by
  have key := region_eq_range (frontier_update G samples S 0 0) 0 samples.length _
    (cpu_pool_batch cpu_workers) (cpu_pool_ne_nil cpu_workers h) sched fc
  simp only [Nat.zero_add, Nat.sub_zero] at key
  rw [List.range_eq_range', ← key]
  unfold build_frontier batch_frontier
  congr 1
  funext acc a
  simp only
  rw [List.range'_eq_map_range, List.foldl_map]
  congr 1
  funext x y
  exact frontier_update_self G samples S a.1 x y

/-! ## Counting worker -/

theorem getD_set_int (l : List Int) (i j : Nat) (x : Int) (hi : i < l.length) :
    (l.set i x).getD j 0 = if i = j then x else l.getD j 0 := by
  simp only [List.getD_eq_getElem?_getD, List.getElem?_set, hi, if_true]
  split_ifs <;> rfl

/-- Amount added to the local buffer for vertex `v` by one iteration of
`batch_counters`. -/
theorem count_update_getD {M : Type} (G : Graph M) (S : Finset Nat) (fc : List (List Bool))
    (sample_id base : Nat) (eMask : M) (count_ : List Int) (v : Nat)
    (hpos : 0 < count_.length) (j : Nat) :
    (count_update G S fc sample_id base eMask count_ v).length = count_.length
    ∧ (count_update G S fc sample_id base eMask count_ v).getD j 0
      = count_.getD j 0
        + (if v % count_.length = j then
            (if v ∈ S then 0 else marginal G fc sample_id base eMask v) else 0) := by
  unfold count_update
  by_cases hS : v ∈ S
  · simp [hS]
  · simp only [hS, if_false, List.length_set, true_and]
    rw [getD_set_int _ _ _ _ (Nat.mod_lt _ hpos)]
    by_cases hj : v % count_.length = j
    · simp [hj]
    · simp [hj]

/-- Effect of the loop of `batch_counters` over `k` consecutive vertices
starting at slot `a` of the block that starts at `p * len`. -/
theorem foldl_count_update {M : Type} (G : Graph M) (S : Finset Nat) (fc : List (List Bool))
    (sample_id base : Nat) (eMask : M) (len p : Nat) (k : Nat) :
    ∀ (a : Nat) (count_ : List Int), count_.length = len → a + k ≤ len →
      ((List.range' (p * len + a) k).foldl (count_update G S fc sample_id base eMask)
          count_).length = len
      ∧ ∀ j, ((List.range' (p * len + a) k).foldl (count_update G S fc sample_id base eMask)
          count_).getD j 0
        = count_.getD j 0
          + (if a ≤ j ∧ j < a + k then
              (if p * len + j ∈ S then 0 else marginal G fc sample_id base eMask (p * len + j))
             else 0) := by
  induction k with
  | zero =>
    intro a count_ hlen _
    refine ⟨hlen, fun j => ?_⟩
    have : ¬ (a ≤ j ∧ j < a + 0) := by omega
    simp [this]
  | succ k ih =>
    intro a count_ hlen hak
    rw [List.range'_succ, List.foldl_cons]
    have hpos : 0 < count_.length := by omega
    have hmod : (p * len + a) % count_.length = a := by
      rw [hlen, Nat.mul_comm, Nat.mul_add_mod]
      exact Nat.mod_eq_of_lt (by omega)
    have hl1 := (count_update_getD G S fc sample_id base eMask count_ (p * len + a) hpos 0).1
    obtain ⟨r1, r2⟩ := ih (a + 1)
      (count_update G S fc sample_id base eMask count_ (p * len + a)) (hl1.trans hlen)
      (by omega)
    rw [show p * len + a + 1 = p * len + (a + 1) by omega]
    refine ⟨r1, fun j => ?_⟩
    rw [r2 j, (count_update_getD G S fc sample_id base eMask count_ (p * len + a) hpos j).2,
      hmod]
    by_cases e : a = j
    · subst e
      have h1 : ¬ (a + 1 ≤ a ∧ a < a + 1 + k) := by omega
      have h2 : a ≤ a ∧ a < a + (k + 1) := by omega
      simp [h1, h2]
    · by_cases h1 : a + 1 ≤ j ∧ j < a + 1 + k
      · have h2 : a ≤ j ∧ j < a + (k + 1) := by omega
        simp [e, h1, h2]
      · have h2 : ¬ (a ≤ j ∧ j < a + (k + 1)) := by omega
        simp [e, h1, h2]

/-- Effect of `batch_counters` on a batch `[B, E)` that lies inside block `p`. -/
theorem batch_counters_getD {M : Type} (G : Graph M) (S : Finset Nat) (fc : List (List Bool))
    (count_ : List Int) (p B E sample_id base : Nat) (eMask : M)
    (hB : block_start count_.length p ≤ B)
    (hE : E ≤ block_start count_.length p + count_.length) :
    (batch_counters G S fc count_ B E sample_id base eMask).length = count_.length
    ∧ ∀ j, (batch_counters G S fc count_ B E sample_id base eMask).getD j 0
        = count_.getD j 0
          + (if B ≤ block_start count_.length p + j ∧ block_start count_.length p + j < E then
              (if block_start count_.length p + j ∈ S then 0
               else marginal G fc sample_id base eMask (block_start count_.length p + j))
             else 0) := by
  unfold batch_counters
  unfold block_start at hB hE ⊢
  by_cases hBE : B ≤ E
  · obtain ⟨r1, r2⟩ := foldl_count_update G S fc sample_id base eMask count_.length p (E - B)
      (B - p * count_.length) count_ rfl (by omega)
    rw [show p * count_.length + (B - p * count_.length) = B by omega] at r1 r2
    refine ⟨r1, fun j => ?_⟩
    rw [r2 j]
    congr 1
    by_cases h : B ≤ p * count_.length + j ∧ p * count_.length + j < E
    · have h2 : B - p * count_.length ≤ j ∧ j < B - p * count_.length + (E - B) := by omega
      rw [if_pos h, if_pos h2]
    · have h2 : ¬ (B - p * count_.length ≤ j ∧ j < B - p * count_.length + (E - B)) := by
        omega
      rw [if_neg h, if_neg h2]
  · have h0 : E - B = 0 := by omega
    rw [h0]
    refine ⟨rfl, fun j => ?_⟩
    have h : ¬ (B ≤ p * count_.length + j ∧ p * count_.length + j < E) := by omega
    simp [h]

theorem block_slot_mod (len q r : Nat) (hr : r < len) : (block_start len q + r) % len = r := by
  unfold block_start
  rw [Nat.mul_comm, Nat.mul_add_mod]
  exact Nat.mod_eq_of_lt hr

/-- The loop body of `exec` over one sample is `batch_counters` on the whole
vertex range, with `base` the number of true entries of the sample's frontier. -/
theorem count_sample_eq {M : Type} (cfg : Config M) (σ : Schedule) (i rank p : Nat)
    (hw : 1 ≤ cfg.cpu_workers) (fc : List (List Bool)) (S : Finset Nat) (B E : Nat)
    (count_ : List Int) (sample_id : Nat) (eMask : M)
    (hs : (cfg.samples rank)[sample_id]? = some eMask)
    (hBE : B ≤ E) (hE : E < vertex_modulus) :
    count_sample cfg σ i rank p fc S B E count_ sample_id
      = batch_counters cfg.G S fc count_ B E sample_id ((fc.getD sample_id []).count true)
          eMask := by
  unfold count_sample
  rw [hs]
  exact build_counters_eq cfg.G cfg.cpu_workers hw _ S fc count_ B E sample_id _ eMask hBE hE

/-- The loop body of `exec` over one sample hands `build_counters` the number of
true entries of the sample's frontier as `base`. -/
theorem count_sample_base {M : Type} (cfg : Config M) (σ : Schedule) (i rank p : Nat)
    (fc : List (List Bool)) (S : Finset Nat) (B E : Nat)
    (count_ : List Int) (sample_id : Nat) (eMask : M)
    (hs : (cfg.samples rank)[sample_id]? = some eMask) :
    count_sample cfg σ i rank p fc S B E count_ sample_id
      = build_counters cfg.G (cpu_pool cfg.cpu_workers) (σ.counters i rank p sample_id) S fc
          count_ B E sample_id ((fc.getD sample_id []).count true) eMask := by
  unfold count_sample
  rw [hs]

/-- C5 (marginal contribution rule of the CPU worker).  For a batch `[B, E)`
inside block `q` of a local buffer `count_`: for every vertex `v` of the batch
the slot `v mod count_.size()` grows by 0 when `v` is in `S`, by `base` when `v`
is not in `S` and `frontier_cache[sample_id][v]` is true, and by the result of
the traversal seeded at `v` otherwise; a slot that belongs to no vertex of the
batch is unchanged; and the loop body of `exec` for a sample runs the counters
with `base` equal to the number of true entries of `frontier_cache[sample_id]`,
which for a range with `B ≤ E` is `batch_counters` on the whole range. -/
theorem marginal_contribution_rule {M : Type} (cfg : Config M) (σ : Schedule)
    (i rank p : Nat) (fc : List (List Bool)) (S : Finset Nat) (count_ : List Int)
    (q B E sample_id base : Nat) (eMask : M)
    (hB : block_start count_.length q ≤ B)
    (hE : E ≤ block_start count_.length q + count_.length)
    (hw : 1 ≤ cfg.cpu_workers)
    (hs : (cfg.samples rank)[sample_id]? = some eMask) :
    (∀ v, B ≤ v → v < E →
        (batch_counters cfg.G S fc count_ B E sample_id base eMask).getD (v % count_.length) 0
          = count_.getD (v % count_.length) 0
            + (if v ∈ S then 0
               else if (fc.getD sample_id []).getD v false then (base : Int)
               else cfg.G.BFS_vertex eMask v (fc.getD sample_id [])))
    ∧ (∀ j, (∀ v, B ≤ v → v < E → v % count_.length ≠ j) →
        (batch_counters cfg.G S fc count_ B E sample_id base eMask).getD j 0
          = count_.getD j 0)
    ∧ count_sample cfg σ i rank p fc S B E count_ sample_id
        = build_counters cfg.G (cpu_pool cfg.cpu_workers) (σ.counters i rank p sample_id) S fc
            count_ B E sample_id ((fc.getD sample_id []).count true) eMask
    ∧ (B ≤ E → E < vertex_modulus →
        count_sample cfg σ i rank p fc S B E count_ sample_id
          = batch_counters cfg.G S fc count_ B E sample_id
              ((fc.getD sample_id []).count true) eMask) := by
  obtain ⟨_, r2⟩ := batch_counters_getD cfg.G S fc count_ q B E sample_id base eMask hB hE
  refine ⟨?_, ?_, count_sample_base cfg σ i rank p fc S B E count_ sample_id eMask hs,
    count_sample_eq cfg σ i rank p hw fc S B E count_ sample_id eMask hs⟩
  · intro v hv1 hv2
    have hr : v - block_start count_.length q < count_.length := by omega
    have hv : block_start count_.length q + (v - block_start count_.length q) = v := by omega
    have hm := block_slot_mod count_.length q _ hr
    rw [hv] at hm
    rw [hm, r2, hv, if_pos ⟨hv1, hv2⟩]
    rfl
  · intro j hj
    rw [r2, if_neg, add_zero]
    rintro ⟨c1, c2⟩
    exact hj _ c1 c2 (block_slot_mod count_.length q j (by omega))

/-- Witness of C5: the batch `[3, 5)` of block 1 of a 3-slot buffer, on a run
with one CPU worker and one sample; the counters of the sample over this range
are one pass of `batch_counters`. -/
theorem marginal_contribution_rule_witness :
    (block_start ([0, 0, 0] : List Int).length 1 ≤ 3
      ∧ 5 ≤ block_start ([0, 0, 0] : List Int).length 1 + ([0, 0, 0] : List Int).length)
    ∧ (batch_counters (edgeless_config 5 2 1 1).G {4} [[false, false, false, false, true]]
          [0, 0, 0] 3 5 0 1 ()).getD (3 % ([0, 0, 0] : List Int).length) 0
        = ([0, 0, 0] : List Int).getD (3 % ([0, 0, 0] : List Int).length) 0
          + (if 3 ∈ ({4} : Finset Nat) then 0
             else if (([[false, false, false, false, true]] : List (List Bool)).getD 0 []).getD
                 3 false then ((1 : Nat) : Int)
             else (edgeless_config 5 2 1 1).G.BFS_vertex () 3
                 (([[false, false, false, false, true]] : List (List Bool)).getD 0 []))
    ∧ count_sample (edgeless_config 5 2 1 1) ⟨fun _ _ => [], fun _ _ _ _ => []⟩ 0 0 0
          [[false, false, false, false, true]] {4} 3 5 [0, 0, 0] 0
        = batch_counters (edgeless_config 5 2 1 1).G {4} [[false, false, false, false, true]]
            [0, 0, 0] 3 5 0
            ((([[false, false, false, false, true]] : List (List Bool)).getD 0 []).count true)
            () :=
  ⟨by decide,
    (marginal_contribution_rule (edgeless_config 5 2 1 1) ⟨fun _ _ => [], fun _ _ _ _ => []⟩
      0 0 0 [[false, false, false, false, true]] {4} [0, 0, 0] 1 3 5 0 1 ()
      (by decide) (by decide) (by decide) (by decide)).1 3 (by decide) (by decide),
    (marginal_contribution_rule (edgeless_config 5 2 1 1) ⟨fun _ _ => [], fun _ _ _ _ => []⟩
      0 0 0 [[false, false, false, false, true]] {4} [0, 0, 0] 1 3 5 0 1 ()
      (by decide) (by decide) (by decide) (by decide)).2.2.2 (by decide) (by decide)⟩

/-! ## Counting phase and accumulation -/

theorem list_ext_getD (l1 l2 : List Int) (hl : l1.length = l2.length)
    (h : ∀ j, j < l1.length → l1.getD j 0 = l2.getD j 0) : l1 = l2 := by
  apply List.ext_getElem hl
  intro n h1 h2
  have := h n h1
  rwa [List.getD_eq_getElem _ _ h1, List.getD_eq_getElem _ _ h2] at this

theorem getD_zipWith_add (a b : List Int) (hl : a.length = b.length) (j : Nat) :
    (List.zipWith (· + ·) a b).getD j 0 = a.getD j 0 + b.getD j 0 := by
  by_cases hj : j < a.length
  · have h1 : j < (List.zipWith (· + ·) a b).length := by
      rw [List.length_zipWith]; omega
    rw [List.getD_eq_getElem _ _ h1, List.getD_eq_getElem _ _ hj,
      List.getD_eq_getElem _ _ (show j < b.length by omega), List.getElem_zipWith]
  · have h1 : (List.zipWith (· + ·) a b).length ≤ j := by
      rw [List.length_zipWith]; omega
    rw [List.getD_eq_default _ _ h1, List.getD_eq_default _ _ (show a.length ≤ j by omega),
      List.getD_eq_default _ _ (show b.length ≤ j by omega)]
    rfl

theorem getD_replicate_zero (n j : Nat) : (List.replicate n (0 : Int)).getD j 0 = 0 := by
  rw [List.getD_eq_getElem?_getD, List.getElem?_replicate]
  split_ifs <;> rfl

theorem sum_map_range (f : Nat → Int) (n : Nat) :
    ((List.range n).map f).sum = ∑ x ∈ Finset.range n, f x := by
  induction n with
  | zero => rfl
  | succ n ih =>
    rw [List.range_succ, List.map_append, List.sum_append, ih, Finset.sum_range_succ]
    simp

theorem sum_map_flatMap {α β : Type} (l : List α) (f : α → List β) (g : β → Int) :
    ((l.flatMap f).map g).sum = (l.map (fun x => ((f x).map g).sum)).sum := by
  induction l with
  | nil => rfl
  | cons x xs ih =>
    rw [List.flatMap_cons, List.map_append, List.sum_append, ih, List.map_cons, List.sum_cons]

/-- The windows after the fence: every slot holds its initial value plus the sum
of the origin entries of all accumulates that targeted the rank. -/
theorem fence_getD (bs : Nat) (ops : List (Nat × List Int)) :
    ∀ (owned : Nat → List Int), (∀ op ∈ ops, op.2.length = bs) → ∀ r, (owned r).length = bs →
      (fence ops owned r).length = bs
      ∧ ∀ j, (fence ops owned r).getD j 0
          = (owned r).getD j 0
            + (ops.map (fun op => if op.1 = r then op.2.getD j 0 else 0)).sum := by
  induction ops with
  | nil =>
    intro owned _ r hr
    exact ⟨hr, fun j => by simp [fence]⟩
  | cons op rest ih =>
    intro owned hops r hr
    have hop := hops op (List.mem_cons_self _ _)
    have hrest : ∀ x ∈ rest, x.2.length = bs := fun x hx => hops x (List.mem_cons_of_mem _ hx)
    have hr2 : (MPI_Accumulate owned op r).length = bs := by
      unfold MPI_Accumulate
      rw [Function.update_apply]
      split_ifs with e
      · rw [List.length_zipWith, ← e, hr, hop]; exact Nat.min_self bs
      · exact hr
    obtain ⟨r1, r2⟩ := ih (MPI_Accumulate owned op) hrest r hr2
    unfold fence at r1 r2 ⊢
    rw [List.foldl_cons]
    refine ⟨r1, fun j => ?_⟩
    rw [r2 j, List.map_cons, List.sum_cons, ← add_assoc]
    congr 1
    unfold MPI_Accumulate
    rw [Function.update_apply]
    by_cases e : r = op.1
    · rw [if_pos e, if_pos e.symm, ← e, getD_zipWith_add _ _ (by rw [hr, hop])]
    · rw [if_neg e, if_neg (fun h => e h.symm), add_zero]

/-- The local buffer after the loop over the first `m` samples for one block. -/
theorem foldl_count_sample {M : Type} (cfg : Config M) (σ : Schedule) (i rank p cb : Nat)
    (hw : 1 ≤ cfg.cpu_workers) (fc : List (List Bool)) (S : Finset Nat) (count_ : List Int)
    (hlen : count_.length = cfg.bs) (m : Nat) (hm : m ≤ (cfg.samples rank).length)
    (hcb : block_start cfg.bs cb ≤ cfg.G.num_nodes) (hn : cfg.G.num_nodes < vertex_modulus) :
    ((List.range m).foldl
        (count_sample cfg σ i rank p fc S (block_start cfg.bs cb)
          (block_end cfg.bs cfg.G.num_nodes cb)) count_).length = cfg.bs
    ∧ ∀ j, j < cfg.bs →
        ((List.range m).foldl
          (count_sample cfg σ i rank p fc S (block_start cfg.bs cb)
            (block_end cfg.bs cfg.G.num_nodes cb)) count_).getD j 0
        = count_.getD j 0
          + ∑ s ∈ Finset.range m,
              contribution cfg.G (cfg.samples rank) fc S s (block_start cfg.bs cb + j) := by
  induction m with
  | zero => exact ⟨hlen, fun j _ => by simp⟩
  | succ m ih =>
    obtain ⟨r1, r2⟩ := ih (by omega)
    rw [List.range_succ, List.foldl_append, List.foldl_cons, List.foldl_nil]
    have hm2 : m < (cfg.samples rank).length := by omega
    have hs : (cfg.samples rank)[m]? = some ((cfg.samples rank)[m]) :=
      List.getElem?_eq_getElem hm2
    have hBE : block_start cfg.bs cb ≤ block_end cfg.bs cfg.G.num_nodes cb := by
      unfold block_end; omega
    have hE2 : block_end cfg.bs cfg.G.num_nodes cb < vertex_modulus := by
      unfold block_end; omega
    rw [count_sample_eq cfg σ i rank p hw fc S _ _ _ m _ hs hBE hE2]
    have hB : block_start ((List.range m).foldl
        (count_sample cfg σ i rank p fc S (block_start cfg.bs cb)
          (block_end cfg.bs cfg.G.num_nodes cb)) count_).length cb
        ≤ block_start cfg.bs cb := by rw [r1]
    have hE : block_end cfg.bs cfg.G.num_nodes cb ≤ block_start ((List.range m).foldl
        (count_sample cfg σ i rank p fc S (block_start cfg.bs cb)
          (block_end cfg.bs cfg.G.num_nodes cb)) count_).length cb
        + ((List.range m).foldl
        (count_sample cfg σ i rank p fc S (block_start cfg.bs cb)
          (block_end cfg.bs cfg.G.num_nodes cb)) count_).length := by
      rw [r1]; unfold block_end; exact Nat.min_le_left _ _
    obtain ⟨b1, b2⟩ := batch_counters_getD cfg.G S fc _ cb _ _ m
      ((fc.getD m []).count true) ((cfg.samples rank)[m]) hB hE
    refine ⟨b1.trans r1, fun j hj => ?_⟩
    rw [b2 j, r2 j hj, Finset.sum_range_succ, add_assoc, r1]
    congr 2
    unfold contribution
    rw [hs]
    simp only
    unfold block_end
    by_cases hS : block_start cfg.bs cb + j ∈ S
    · simp [hS]
    · by_cases hn : cfg.G.num_nodes ≤ block_start cfg.bs cb + j
      · have : ¬ (block_start cfg.bs cb + j
            < min (block_start cfg.bs cb + cfg.bs) cfg.G.num_nodes) := by omega
        simp [hS, hn, this]
      · have : block_start cfg.bs cb + j
            < min (block_start cfg.bs cb + cfg.bs) cfg.G.num_nodes := by omega
        simp [hS, hn, this]

/-- The local buffer handed to `MPI_Accumulate` for block step `p`, when the
buffer was zero before the block: slot `j` holds the sum over the samples of the
rank of the contributions to vertex `current_block * bs + j`. -/
theorem count_block_eq {M : Type} (cfg : Config M) (σ : Schedule) (i rank p : Nat)
    (hw : 1 ≤ cfg.cpu_workers) (hws : 1 ≤ cfg.world_size)
    (hfit : BlocksFit cfg) (fc : List (List Bool)) (S : Finset Nat) :
    count_block cfg σ i rank fc S (List.replicate cfg.bs 0) p
      = (List.range cfg.bs).map (fun j =>
          rank_score cfg.G (cfg.samples rank) fc S
            (block_start cfg.bs ((p + rank) % cfg.world_size) + j)) := by
  obtain ⟨r1, r2⟩ := foldl_count_sample cfg σ i rank p ((p + rank) % cfg.world_size) hw fc S
    (List.replicate cfg.bs 0) (List.length_replicate _ _) (cfg.samples rank).length (le_refl _)
    (hfit.2 _ (Nat.mod_lt _ (by omega))) hfit.1
  unfold count_block
  simp only
  apply list_ext_getD
  · rw [r1, List.length_map, List.length_range]
  · intro j hj
    rw [r1] at hj
    rw [r2 j hj, getD_replicate_zero, zero_add]
    have hj2 : j < ((List.range cfg.bs).map (fun j =>
          rank_score cfg.G (cfg.samples rank) fc S
            (block_start cfg.bs ((p + rank) % cfg.world_size) + j))).length := by
      rw [List.length_map, List.length_range]; exact hj
    rw [List.getD_eq_getElem _ _ hj2, List.getElem_map, List.getElem_range]
    rfl

/-- The accumulates issued by one rank whose local buffer is zero at the start
of the counting phase: one per block step, to the block `(p + rank) % world_size`,
carrying the scores of that block from the samples of the rank; the local buffer
is zero again afterwards. -/
theorem counting_phase_eq {M : Type} (cfg : Config M) (σ : Schedule) (i rank : Nat)
    (hw : 1 ≤ cfg.cpu_workers) (hws : 1 ≤ cfg.world_size)
    (hfit : BlocksFit cfg) (e : Engine) (h0 : e.local_count_ = List.replicate cfg.bs 0) :
    counting_phase cfg σ i rank e
      = ((List.range cfg.world_size).map (fun p =>
          ((p + rank) % cfg.world_size,
            (List.range cfg.bs).map (fun j =>
              rank_score cfg.G (cfg.samples rank) e.frontier_cache_ e.S_
                (block_start cfg.bs ((p + rank) % cfg.world_size) + j)))),
         List.replicate cfg.bs 0) := by
  unfold counting_phase
  rw [h0]
  have key : ∀ (ps : List Nat) (ops0 : List (Nat × List Int)),
      ps.foldl
        (fun (acc : List (Nat × List Int) × List Int) p =>
          (acc.1 ++ [((p + rank) % cfg.world_size,
              (count_block cfg σ i rank e.frontier_cache_ e.S_ acc.2 p).take cfg.bs)],
            List.replicate (count_block cfg σ i rank e.frontier_cache_ e.S_ acc.2 p).length 0))
        (ops0, List.replicate cfg.bs 0)
      = (ops0 ++ ps.map (fun p =>
          ((p + rank) % cfg.world_size,
            (List.range cfg.bs).map (fun j =>
              rank_score cfg.G (cfg.samples rank) e.frontier_cache_ e.S_
                (block_start cfg.bs ((p + rank) % cfg.world_size) + j)))),
         List.replicate cfg.bs 0) := by
    intro ps
    induction ps with
    | nil => intro ops0; simp
    | cons p rest ih =>
      intro ops0
      rw [List.foldl_cons]
      simp only
      rw [count_block_eq cfg σ i rank p hw hws hfit, List.length_map, List.length_range,
        List.take_of_length_le (by rw [List.length_map, List.length_range]), ih]
      simp
  have := key (List.range cfg.world_size) []
  simpa using this

theorem mod_of_lt_two_mul (x ws : Nat) (h : x < ws + ws) :
    x % ws = if x < ws then x else x - ws := by
  split_ifs with hx
  · exact Nat.mod_eq_of_lt hx
  · rw [Nat.mod_eq_sub_mod (by omega)]
    exact Nat.mod_eq_of_lt (by omega)

/-- Among the block steps `p < world_size` of rank `q`, exactly one targets rank
`r`: the shifted order visits every block once. -/
theorem sum_shifted_blocks (ws q r : Nat) (hq : q < ws) (hr : r < ws) (g : Nat → Int) :
    ((List.range ws).map (fun p => if (p + q) % ws = r then g ((p + q) % ws) else 0)).sum
      = g r := by
  rw [sum_map_range]
  have hcongr : ∀ p ∈ Finset.range ws,
      (if (p + q) % ws = r then g ((p + q) % ws) else 0)
        = (if (r + ws - q) % ws = p then g r else 0) := by
    intro p hp
    rw [Finset.mem_range] at hp
    have h1 := mod_of_lt_two_mul (p + q) ws (by omega)
    have h2 := mod_of_lt_two_mul (r + ws - q) ws (by omega)
    by_cases e : (p + q) % ws = r
    · have e2 : (r + ws - q) % ws = p := by
        split_ifs at h1 h2 <;> omega
      rw [if_pos e, if_pos e2, e]
    · have e2 : ¬ (r + ws - q) % ws = p := by
        split_ifs at h1 h2 <;> omega
      rw [if_neg e, if_neg e2]
  rw [Finset.sum_congr rfl hcongr, Finset.sum_ite_eq]
  have : (r + ws - q) % ws ∈ Finset.range ws :=
    Finset.mem_range.2 (Nat.mod_lt _ (by omega))
  rw [if_pos this]

theorem getD_map_range (f : Nat → Int) (n j : Nat) (hj : j < n) :
    ((List.range n).map f).getD j 0 = f j := by
  have hj2 : j < ((List.range n).map f).length := by
    rw [List.length_map, List.length_range]; exact hj
  rw [List.getD_eq_getElem _ _ hj2, List.getElem_map, List.getElem_range]

/-- All accumulates of a round in which every local buffer starts at zero. -/
theorem round_ops_eq {M : Type} (cfg : Config M) (σ : Schedule) (i : Nat) (w : World)
    (hw : 1 ≤ cfg.cpu_workers) (hfit : BlocksFit cfg)
    (h0 : ∀ q, q < cfg.world_size → (w q).local_count_ = List.replicate cfg.bs 0) :
    round_ops cfg σ i w
      = ((List.range cfg.world_size).map (fun q =>
          (List.range cfg.world_size).map (fun p =>
            ((p + q) % cfg.world_size,
              (List.range cfg.bs).map (fun j =>
                rank_score cfg.G (cfg.samples q) (after_frontier cfg σ i w q).frontier_cache_
                  (w q).S_ (block_start cfg.bs ((p + q) % cfg.world_size) + j)))))).flatten := by
  unfold round_ops
  rw [List.flatMap_def]
  congr 1
  apply List.map_congr_left
  intro q hq
  have hws : 1 ≤ cfg.world_size := by
    have := List.mem_range.1 hq
    omega
  rw [counting_phase_eq cfg σ i q hw hws hfit (after_frontier cfg σ i w q)
    (h0 q (List.mem_range.1 hq))]
  rfl

theorem round_ops_length {M : Type} (cfg : Config M) (σ : Schedule) (i : Nat) (w : World)
    (hw : 1 ≤ cfg.cpu_workers) (hfit : BlocksFit cfg)
    (h0 : ∀ q, q < cfg.world_size → (w q).local_count_ = List.replicate cfg.bs 0) :
    ∀ op ∈ round_ops cfg σ i w, op.2.length = cfg.bs := by
  intro op hop
  rw [round_ops_eq cfg σ i w hw hfit h0, List.mem_flatten] at hop
  obtain ⟨l, hl, hopl⟩ := hop
  obtain ⟨q, _, rfl⟩ := List.mem_map.1 hl
  obtain ⟨p, _, rfl⟩ := List.mem_map.1 hopl
  simp

/-- Sum of what the accumulates of a round add to slot `j` of rank `r`. -/
theorem round_ops_sum {M : Type} (cfg : Config M) (σ : Schedule) (i : Nat) (w : World)
    (S : Finset Nat) (hw : 1 ≤ cfg.cpu_workers) (hfit : BlocksFit cfg)
    (h0 : ∀ q, q < cfg.world_size → (w q).local_count_ = List.replicate cfg.bs 0)
    (hS : ∀ q, q < cfg.world_size → (w q).S_ = S)
    (r : Nat) (hr : r < cfg.world_size) (j : Nat) (hj : j < cfg.bs) :
    ((round_ops cfg σ i w).map (fun op => if op.1 = r then op.2.getD j 0 else 0)).sum
      = true_score cfg σ i w S (block_start cfg.bs r + j) := by
  rw [round_ops_eq cfg σ i w hw hfit h0, ← List.flatMap_def, sum_map_flatMap, sum_map_range]
  unfold true_score
  apply Finset.sum_congr rfl
  intro q hq
  rw [Finset.mem_range] at hq
  rw [List.map_map]
  have := sum_shifted_blocks cfg.world_size q r hq hr (fun c =>
    ((List.range cfg.bs).map (fun j =>
      rank_score cfg.G (cfg.samples q) (after_frontier cfg σ i w q).frontier_cache_
        (w q).S_ (block_start cfg.bs c + j))).getD j 0)
  simp only [getD_map_range _ _ _ hj] at this
  rw [hS q hq] at this
  rw [← this]
  congr 1
  apply List.map_congr_left
  intro p _
  simp only [Function.comp]
  split_ifs with e
  · rw [getD_map_range _ _ _ hj, hS q hq]
  · rfl

/-- Accumulation when no block starts beyond `n`.  Let every rank below
`world_size` enter a round with zero local and owned buffers of `bs` entries and
the same seed set `S`, and let the accumulates of the round take effect in any
order `ops` (a permutation of the operations issued by the ranks, each rank
visiting the blocks in the order `(p + rank) % world_size`).  After the closing
fence, slot `j` of the owned buffer of rank `r` holds the sum over all ranks and
all their samples of the contribution for vertex `r * bs + j`, which is zero when
that vertex is in `S` or is not below `n`. -/
theorem accumulation_of_fit {M : Type} (cfg : Config M) (σ : Schedule) (i : Nat) (w : World)
    (S : Finset Nat) (hw : 1 ≤ cfg.cpu_workers) (hfit : BlocksFit cfg)
    (h0 : ∀ q, q < cfg.world_size →
      (w q).local_count_ = List.replicate cfg.bs 0
      ∧ (w q).global_count_ = List.replicate cfg.bs 0 ∧ (w q).S_ = S)
    (ops : List (Nat × List Int)) (hperm : ops.Perm (round_ops cfg σ i w))
    (r : Nat) (hr : r < cfg.world_size) (j : Nat) (hj : j < cfg.bs) :
    ((after_fence_with cfg σ i w ops r).global_count_).getD j 0
      = ∑ q ∈ Finset.range cfg.world_size,
          ∑ s ∈ Finset.range (cfg.samples q).length,
            contribution cfg.G (cfg.samples q) (after_frontier cfg σ i w q).frontier_cache_ S s
              (r * cfg.bs + j) := by
  have hl : ∀ q, q < cfg.world_size → (w q).local_count_ = List.replicate cfg.bs 0 :=
    fun q hq => (h0 q hq).1
  have hops : ∀ op ∈ ops, op.2.length = cfg.bs := fun op hop =>
    round_ops_length cfg σ i w hw hfit hl op (hperm.mem_iff.1 hop)
  have hown : ((fun q => (after_frontier cfg σ i w q).global_count_) r).length = cfg.bs := by
    show (w r).global_count_.length = cfg.bs
    rw [(h0 r hr).2.1, List.length_replicate]
  obtain ⟨_, f2⟩ := fence_getD cfg.bs ops
    (fun q => (after_frontier cfg σ i w q).global_count_) hops r hown
  show (fence ops (fun q => (after_frontier cfg σ i w q).global_count_) r).getD j 0 = _
  rw [f2 j]
  have hz : ((fun q => (after_frontier cfg σ i w q).global_count_) r).getD j 0 = 0 := by
    show (w r).global_count_.getD j 0 = 0
    rw [(h0 r hr).2.1, getD_replicate_zero]
  rw [hz, zero_add, (hperm.map _).sum_eq,
    round_ops_sum cfg σ i w S hw hfit hl (fun q hq => (h0 q hq).2.2) r hr j hj]
  rfl

/-! ## Selection of the next seed -/

theorem getD_append_length (pre rest : List Int) (x : Int) :
    (pre ++ x :: rest).getD pre.length 0 = x := by
  rw [List.getD_eq_getElem?_getD, List.getElem?_append_right (le_refl _), Nat.sub_self]
  simp

theorem getD_append_lt (pre rest : List Int) (k : Nat) (hk : k < pre.length) :
    (pre ++ rest).getD k 0 = pre.getD k 0 := by
  simp [List.getD_eq_getElem?_getD, List.getElem?_append_left hk]

theorem getD_mem (l : List Int) (k : Nat) (hk : k < l.length) : l.getD k 0 ∈ l := by
  rw [List.getD_eq_getElem _ _ hk]
  exact List.getElem_mem hk

/-- Loop invariant of `std::max_element`: `largest` is the first position of the
maximum of the part already scanned. -/
theorem max_element_loop_spec (l : List Int) :
    ∀ (rest pre : List Int) (best : Int) (largest : Nat), l = pre ++ rest →
      largest < pre.length → l.getD largest 0 = best → (∀ x ∈ pre, x ≤ best) →
      (∀ k, k < largest → l.getD k 0 < best) →
      max_element_loop rest pre.length best largest < l.length
      ∧ (∀ x ∈ l, x ≤ l.getD (max_element_loop rest pre.length best largest) 0)
      ∧ (∀ k, k < max_element_loop rest pre.length best largest →
          l.getD k 0 < l.getD (max_element_loop rest pre.length best largest) 0) := by
  intro rest
  induction rest with
  | nil =>
    intro pre best largest hl hlt hbest hmax hfirst
    rw [List.append_nil] at hl
    unfold max_element_loop
    subst hl
    exact ⟨hlt, fun x hx => by rw [hbest]; exact hmax x hx,
      fun k hk => by rw [hbest]; exact hfirst k hk⟩
  | cons x xs ih =>
    intro pre best largest hl hlt hbest hmax hfirst
    unfold max_element_loop
    have hl2 : l = (pre ++ [x]) ++ xs := by rw [hl]; simp
    have hlen : (pre ++ [x]).length = pre.length + 1 := by simp
    by_cases hx : best < x
    · rw [if_pos hx, ← hlen]
      apply ih (pre ++ [x]) x pre.length hl2 (by omega)
      · rw [hl]; exact getD_append_length pre xs x
      · intro y hy
        rcases List.mem_append.1 hy with h | h
        · exact le_of_lt (lt_of_le_of_lt (hmax y h) hx)
        · rw [List.mem_singleton.1 h]
      · intro k hk
        rw [hl, getD_append_lt _ _ _ hk]
        exact lt_of_le_of_lt (hmax _ (getD_mem pre k hk)) hx
    · rw [if_neg hx, ← hlen]
      apply ih (pre ++ [x]) best largest hl2 (by omega) hbest
      · intro y hy
        rcases List.mem_append.1 hy with h | h
        · exact hmax y h
        · rw [List.mem_singleton.1 h]; exact not_lt.1 hx
      · exact hfirst

/-- Position returned by `std::max_element` on a non-empty vector: a valid
index, holding the maximum, and the first index that holds it. -/
theorem max_element_spec (l : List Int) (hne : l ≠ []) :
    max_element l < l.length
    ∧ (∀ x ∈ l, x ≤ l.getD (max_element l) 0)
    ∧ (∀ k, k < max_element l → l.getD k 0 < l.getD (max_element l) 0) := by
  cases l with
  | nil => exact absurd rfl hne
  | cons x rest =>
    unfold max_element
    have := max_element_loop_spec (x :: rest) rest [x] x 0 rfl (by simp) rfl
      (fun y hy => by rw [List.mem_singleton.1 hy]) (fun k hk => absurd hk (Nat.not_lt_zero k))
    simpa using this

theorem MAXLOC_mem (a b : Int × Nat) : MAXLOC a b = a ∨ MAXLOC a b = b := by
  unfold MAXLOC
  split_ifs with h1 h2
  · exact Or.inl rfl
  · exact Or.inr rfl
  · have e : a.1 = b.1 := le_antisymm (not_lt.1 h1) (not_lt.1 h2)
    rcases Nat.le_total a.2 b.2 with h | h
    · left; rw [Nat.min_eq_left h]
    · right; rw [Nat.min_eq_right h, e]

theorem MAXLOC_dominates (a b : Int × Nat) :
    (a.1 < (MAXLOC a b).1 ∨ (a.1 = (MAXLOC a b).1 ∧ (MAXLOC a b).2 ≤ a.2))
    ∧ (b.1 < (MAXLOC a b).1 ∨ (b.1 = (MAXLOC a b).1 ∧ (MAXLOC a b).2 ≤ b.2)) := by
  unfold MAXLOC
  split_ifs with h1 h2
  · exact ⟨Or.inr ⟨rfl, le_refl _⟩, Or.inl h1⟩
  · exact ⟨Or.inl h2, Or.inr ⟨rfl, le_refl _⟩⟩
  · have e : a.1 = b.1 := le_antisymm (not_lt.1 h1) (not_lt.1 h2)
    exact ⟨Or.inr ⟨rfl, Nat.min_le_left _ _⟩, Or.inr ⟨e.symm, Nat.min_le_right _ _⟩⟩

/-- Result of folding `MPI_MAXLOC`: one of the operands, with the largest value
and, among the operands with that value, the smallest index. -/
theorem foldl_MAXLOC_spec (l : List (Int × Nat)) :
    ∀ a : Int × Nat, l.foldl MAXLOC a ∈ a :: l
      ∧ ∀ x ∈ a :: l, x.1 < (l.foldl MAXLOC a).1
          ∨ (x.1 = (l.foldl MAXLOC a).1 ∧ (l.foldl MAXLOC a).2 ≤ x.2) := by
  induction l with
  | nil =>
    intro a
    refine ⟨List.mem_singleton.2 rfl, fun x hx => ?_⟩
    rw [List.mem_singleton.1 hx]
    exact Or.inr ⟨rfl, le_refl _⟩
  | cons b rest ih =>
    intro a
    rw [List.foldl_cons]
    obtain ⟨m1, m2⟩ := ih (MAXLOC a b)
    obtain ⟨d1, d2⟩ := MAXLOC_dominates a b
    have hm := m2 (MAXLOC a b) (List.mem_cons_self _ _)
    have trans : ∀ x : Int × Nat,
        (x.1 < (MAXLOC a b).1 ∨ (x.1 = (MAXLOC a b).1 ∧ (MAXLOC a b).2 ≤ x.2)) →
        x.1 < (rest.foldl MAXLOC (MAXLOC a b)).1
          ∨ (x.1 = (rest.foldl MAXLOC (MAXLOC a b)).1
              ∧ (rest.foldl MAXLOC (MAXLOC a b)).2 ≤ x.2) := by
      intro x hx
      rcases hx with hx | ⟨hx1, hx2⟩
      · rcases hm with hm | ⟨hm1, _⟩
        · exact Or.inl (lt_trans hx hm)
        · exact Or.inl (hm1 ▸ hx)
      · rcases hm with hm | ⟨hm1, hm2⟩
        · exact Or.inl (hx1 ▸ hm)
        · exact Or.inr ⟨hx1.trans hm1, le_trans hm2 hx2⟩
    constructor
    · rcases List.mem_cons.1 m1 with h | h
      · rw [h]
        rcases MAXLOC_mem a b with e | e
        · rw [e]; exact List.mem_cons_self _ _
        · rw [e]; exact List.mem_cons_of_mem _ (List.mem_cons_self _ _)
      · exact List.mem_cons_of_mem _ (List.mem_cons_of_mem _ h)
    · intro x hx
      rcases List.mem_cons.1 hx with h | h
      · rw [h]; exact trans a d1
      · rcases List.mem_cons.1 h with h2 | h2
        · rw [h2]; exact trans b d2
        · exact m2 x (List.mem_cons_of_mem _ h2)

theorem allreduce_spec (ps : List (Int × Nat)) (hne : ps ≠ []) :
    MPI_Allreduce_MAXLOC ps ∈ ps
    ∧ ∀ x ∈ ps, x.1 < (MPI_Allreduce_MAXLOC ps).1
        ∨ (x.1 = (MPI_Allreduce_MAXLOC ps).1 ∧ (MPI_Allreduce_MAXLOC ps).2 ≤ x.2) := by
  cases ps with
  | nil => exact absurd rfl hne
  | cons p rest => exact foldl_MAXLOC_spec rest p

theorem proposals_ne_nil {M : Type} (cfg : Config M) (w : World) (hws : 1 ≤ cfg.world_size) :
    (List.range cfg.world_size).map (fun r => proposal cfg.bs r (w r)) ≠ [] := by
  intro h
  have := congrArg List.length h
  simp at this
  omega

theorem ne_nil_of_length_bs {M : Type} (cfg : Config M) (l : List Int)
    (h : l.length = cfg.bs) : l ≠ [] := by
  intro e
  have := vertex_block_size_pos cfg.G.num_nodes cfg.world_size
  rw [e] at h
  unfold Config.bs at h
  simp only [List.length_nil] at h
  omega

/-- The pair returned by the reduction is the pair of some rank, and it
dominates the pair of every rank. -/
theorem global_best_spec {M : Type} (cfg : Config M) (w : World) (hws : 1 ≤ cfg.world_size) :
    (∃ r, r < cfg.world_size ∧ global_best cfg w = proposal cfg.bs r (w r))
    ∧ ∀ r, r < cfg.world_size →
        (proposal cfg.bs r (w r)).1 < (global_best cfg w).1
        ∨ ((proposal cfg.bs r (w r)).1 = (global_best cfg w).1
            ∧ (global_best cfg w).2 ≤ (proposal cfg.bs r (w r)).2) := by
  obtain ⟨h1, h2⟩ := allreduce_spec _ (proposals_ne_nil cfg w hws)
  constructor
  · obtain ⟨r, hr, e⟩ := List.mem_map.1 h1
    exact ⟨r, List.mem_range.1 hr, e.symm⟩
  · intro r hr
    exact h2 _ (List.mem_map.2 ⟨r, List.mem_range.2 hr, rfl⟩)

/-- C4 (global best candidate, lowest rank wins ties).  Given the owned buffers
of all ranks after the fence, each of `bs` entries: every rank proposes its
maximum value together with `rank * bs + v`, `v` being the first local index
that attains it; the value returned by the MAXLOC reduction is at least every
slot of every rank and is the content of some slot; when several ranks propose
that value, the returned pair is the pair of the smallest such rank; and the
index of the returned pair is what every rank inserts into `S`. -/
theorem global_best_lowest_rank {M : Type} (cfg : Config M) (w : World)
    (hws : 1 ≤ cfg.world_size)
    (hlen : ∀ r, r < cfg.world_size → (w r).global_count_.length = cfg.bs) :
    (∀ r, r < cfg.world_size →
        proposal cfg.bs r (w r)
          = ((w r).global_count_.getD (max_element (w r).global_count_) 0,
              r * cfg.bs + max_element (w r).global_count_)
        ∧ max_element (w r).global_count_ < cfg.bs
        ∧ (∀ x ∈ (w r).global_count_, x ≤ (proposal cfg.bs r (w r)).1)
        ∧ (∀ k, k < max_element (w r).global_count_ →
            (w r).global_count_.getD k 0 < (proposal cfg.bs r (w r)).1))
    ∧ (∀ r, r < cfg.world_size → ∀ x ∈ (w r).global_count_, x ≤ (global_best cfg w).1)
    ∧ (∃ r, r < cfg.world_size ∧ (global_best cfg w).1 ∈ (w r).global_count_)
    ∧ (∀ r0, r0 < cfg.world_size →
        (proposal cfg.bs r0 (w r0)).1 = (global_best cfg w).1 →
        (∀ r, r < r0 → (proposal cfg.bs r (w r)).1 ≠ (global_best cfg w).1) →
        global_best cfg w = proposal cfg.bs r0 (w r0))
    ∧ (∀ r, (select_and_commit cfg w r).S_ = insert (global_best cfg w).2 (w r).S_) := by
  have hprop : ∀ r, r < cfg.world_size →
      max_element (w r).global_count_ < cfg.bs
      ∧ (∀ x ∈ (w r).global_count_, x ≤ (proposal cfg.bs r (w r)).1)
      ∧ (∀ k, k < max_element (w r).global_count_ →
          (w r).global_count_.getD k 0 < (proposal cfg.bs r (w r)).1) := by
    intro r hr
    obtain ⟨m1, m2, m3⟩ := max_element_spec (w r).global_count_
      (ne_nil_of_length_bs cfg _ (hlen r hr))
    rw [hlen r hr] at m1
    exact ⟨m1, m2, m3⟩
  obtain ⟨⟨rb, hrb, eb⟩, hdom⟩ := global_best_spec cfg w hws
  refine ⟨fun r hr => ⟨rfl, hprop r hr⟩, ?_, ?_, ?_, fun r => rfl⟩
  · intro r hr x hx
    have h1 := (hprop r hr).2.1 x hx
    rcases hdom r hr with h | ⟨h, _⟩
    · exact le_trans h1 (le_of_lt h)
    · exact h ▸ h1
  · refine ⟨rb, hrb, ?_⟩
    rw [eb]
    exact getD_mem _ _ (by rw [hlen rb hrb]; exact (hprop rb hrb).1)
  · intro r0 hr0 hv hmin
    have hrb_ge : r0 ≤ rb := by
      by_contra hlt
      exact hmin rb (by omega) (by rw [eb])
    rcases Nat.eq_or_lt_of_le hrb_ge with e | hlt
    · rw [eb, e]
    · exfalso
      rcases hdom r0 hr0 with h | ⟨_, h⟩
      · rw [hv] at h; exact lt_irrefl _ h
      · rw [eb] at h
        have hv0 := (hprop r0 hr0).1
        have hmul : (r0 + 1) * cfg.bs ≤ rb * cfg.bs := Nat.mul_le_mul_right _ hlt
        have e1 : (proposal cfg.bs r0 (w r0)).2
            = r0 * cfg.bs + max_element (w r0).global_count_ := rfl
        have e2 : (proposal cfg.bs rb (w rb)).2
            = rb * cfg.bs + max_element (w rb).global_count_ := rfl
        have e3 : (r0 + 1) * cfg.bs = r0 * cfg.bs + cfg.bs := by ring
        omega

/-- Witness of C4: two ranks with owned buffers `[1, 5, 5]` and `[5, 0, 5]`; both
propose the value 5 and the pair `(5, 1)` of rank 0 is returned. -/
theorem global_best_lowest_rank_witness :
    global_best (edgeless_config 4 2 1 1)
        (fun r => { local_count_ := [0, 0, 0]
                    global_count_ := if r = 0 then [1, 5, 5] else [5, 0, 5]
                    frontier_cache_ := [[]]
                    S_ := ∅ })
      = (5, 1)
    ∧ ∀ r, r < (edgeless_config 4 2 1 1).world_size →
        ∀ x ∈ (if r = 0 then ([1, 5, 5] : List Int) else [5, 0, 5]),
          x ≤ (global_best (edgeless_config 4 2 1 1)
            (fun r => { local_count_ := [0, 0, 0]
                        global_count_ := if r = 0 then [1, 5, 5] else [5, 0, 5]
                        frontier_cache_ := [[]]
                        S_ := ∅ })).1 :=
  ⟨by decide,
    (global_best_lowest_rank (edgeless_config 4 2 1 1)
      (fun r => { local_count_ := [0, 0, 0]
                  global_count_ := if r = 0 then [1, 5, 5] else [5, 0, 5]
                  frontier_cache_ := [[]]
                  S_ := ∅ })
      (by decide)
      (by intro r hr
          have : r = 0 ∨ r = 1 := by
            have : r < 2 := hr
            omega
          rcases this with e | e <;> subst e <;> rfl)).2.1⟩

/-! ## State at the start of a round -/

theorem foldl_invariant {α β : Type} (f : β → α → β) (P : β → Prop)
    (hf : ∀ b a, P b → P (f b a)) (l : List α) : ∀ b, P b → P (l.foldl f b) := by
  induction l with
  | nil => intro b hb; exact hb
  | cons a rest ih => intro b hb; exact ih _ (hf b a hb)

theorem length_count_update {M : Type} (G : Graph M) (S : Finset Nat) (fc : List (List Bool))
    (sample_id base : Nat) (eMask : M) (count_ : List Int) (v : Nat) :
    (count_update G S fc sample_id base eMask count_ v).length = count_.length := by
  unfold count_update
  split_ifs
  · rfl
  · exact List.length_set _ _ _

theorem length_batch_counters {M : Type} (G : Graph M) (S : Finset Nat) (fc : List (List Bool))
    (count_ : List Int) (B E sample_id base : Nat) (eMask : M) :
    (batch_counters G S fc count_ B E sample_id base eMask).length = count_.length := by
  unfold batch_counters
  exact foldl_invariant _ (fun c => c.length = count_.length)
    (fun b a hb => (length_count_update G S fc sample_id base eMask b a).trans hb) _ _ rfl

theorem length_build_counters {M : Type} (G : Graph M) (pool sched : List Nat) (S : Finset Nat)
    (fc : List (List Bool)) (count_ : List Int) (B E sample_id base : Nat) (eMask : M) :
    (build_counters G pool sched S fc count_ B E sample_id base eMask).length
      = count_.length := by
  unfold build_counters
  exact foldl_invariant _ (fun c => c.length = count_.length)
    (fun b a hb => (length_batch_counters G S fc b _ _ sample_id base eMask).trans hb) _ _ rfl

theorem length_count_block {M : Type} (cfg : Config M) (σ : Schedule) (i rank : Nat)
    (fc : List (List Bool)) (S : Finset Nat) (local_count : List Int) (p : Nat) :
    (count_block cfg σ i rank fc S local_count p).length = local_count.length := by
  unfold count_block
  simp only
  refine foldl_invariant _ (fun (c : List Int) => c.length = local_count.length) ?_ _ _ rfl
  intro b a hb
  unfold count_sample
  cases (cfg.samples rank)[a]? with
  | none => exact hb
  | some itr => exact (length_build_counters _ _ _ _ _ _ _ _ _ _ _).trans hb

/-- Whatever the workers do, a rank whose local buffer has `bs` entries issues
accumulates of `bs` entries and leaves a zero local buffer of `bs` entries. -/
theorem counting_phase_shape {M : Type} (cfg : Config M) (σ : Schedule) (i rank : Nat)
    (e : Engine) (h0 : e.local_count_ = List.replicate cfg.bs 0) :
    (∀ op ∈ (counting_phase cfg σ i rank e).1, op.2.length = cfg.bs)
    ∧ (counting_phase cfg σ i rank e).2 = List.replicate cfg.bs 0 := by
  unfold counting_phase
  refine foldl_invariant _
    (fun (acc : List (Nat × List Int) × List Int) =>
      (∀ op ∈ acc.1, op.2.length = cfg.bs) ∧ acc.2 = List.replicate cfg.bs 0) ?_ _ _ ?_
  · intro acc p ⟨h1, h2⟩
    have hl : (count_block cfg σ i rank e.frontier_cache_ e.S_ acc.2 p).length = cfg.bs := by
      rw [length_count_block, h2, List.length_replicate]
    refine ⟨fun op hop => ?_, by simp only [hl]⟩
    rcases List.mem_append.1 hop with h | h
    · exact h1 op h
    · rw [List.mem_singleton.1 h]
      simp only [List.length_take, hl, Nat.min_self]
  · exact ⟨fun op hop => absurd hop (List.not_mem_nil op), h0⟩

theorem round_ops_shape {M : Type} (cfg : Config M) (σ : Schedule) (i : Nat) (w : World)
    (h0 : ∀ q, (w q).local_count_ = List.replicate cfg.bs 0) :
    ∀ op ∈ round_ops cfg σ i w, op.2.length = cfg.bs := by
  intro op hop
  unfold round_ops at hop
  obtain ⟨q, _, hq⟩ := List.mem_flatMap.1 hop
  exact (counting_phase_shape cfg σ i q (after_frontier cfg σ i w q) (h0 q)).1 op hq

theorem length_frontier_update {M : Type} (G : Graph M) (samples : List M) (S : Finset Nat)
    (first offset : Nat) (fc : List (List Bool)) (i : Nat) :
    (frontier_update G samples S first offset fc i).length = fc.length := by
  unfold frontier_update
  cases samples[first + i]? with
  | none => rfl
  | some m => exact List.length_set _ _ _

theorem length_build_frontier {M : Type} (G : Graph M) (pool sched : List Nat)
    (samples : List M) (S : Finset Nat) (fc : List (List Bool)) :
    (build_frontier G pool sched samples S fc).length = fc.length := by
  unfold build_frontier
  refine foldl_invariant _ (fun (c : List (List Bool)) => c.length = fc.length) ?_ _ _ rfl
  intro b a hb
  simp only
  unfold batch_frontier
  exact foldl_invariant _ (fun c => c.length = fc.length)
    (fun c x hc => (length_frontier_update G samples S _ _ c x).trans hc) _ _ hb

theorem vector_resize_zero (slot : List Bool) : vector_resize slot 0 false = [] := by
  simp [vector_resize]

theorem vector_resize_nil_eq {α : Type} (n : Nat) (v : α) :
    vector_resize ([] : List α) n v = List.replicate n v := by
  simp [vector_resize]

theorem roundStart_fresh {M : Type} (cfg : Config M) : RoundStart cfg (fresh_world cfg) := by
  intro r
  exact ⟨vector_resize_nil_eq _ _, vector_resize_nil_eq _ _, vector_resize_nil_eq _ _⟩

/-- A round started with zero buffers and empty frontier slots ends the same
way, whatever the workers and the graph do. -/
theorem roundStart_round {M : Type} (cfg : Config M) (σ : Schedule) (i : Nat) (w : World)
    (h : RoundStart cfg w) : RoundStart cfg (round cfg σ i w) := by
  intro r
  have hl : ∀ q, (w q).local_count_ = List.replicate cfg.bs 0 := fun q => (h q).1
  have hglob : (after_fence cfg σ i w r).global_count_.length = cfg.bs := by
    refine (fence_getD cfg.bs (round_ops cfg σ i w)
      (fun q => (after_frontier cfg σ i w q).global_count_)
      (round_ops_shape cfg σ i w hl) r ?_).1
    show (w r).global_count_.length = cfg.bs
    rw [(h r).2.1, List.length_replicate]
  have hloc : (after_fence cfg σ i w r).local_count_ = List.replicate cfg.bs 0 :=
    (counting_phase_shape cfg σ i r (after_frontier cfg σ i w r) (hl r)).2
  have hfc : (after_fence cfg σ i w r).frontier_cache_.length = (cfg.samples r).length := by
    show (build_frontier _ _ _ _ _ (w r).frontier_cache_).length = _
    rw [length_build_frontier, (h r).2.2, List.length_replicate]
  refine ⟨?_, ?_, ?_⟩
  · show zero_first (after_fence cfg σ i w r).global_count_.length
      (after_fence cfg σ i w r).local_count_ = _
    rw [hglob, hloc]
    simp [zero_first]
  · show List.replicate (after_fence cfg σ i w r).global_count_.length 0 = _
    rw [hglob]
  · show (after_fence cfg σ i w r).frontier_cache_.map (fun slot => vector_resize slot 0 false)
      = _
    rw [← hfc]
    apply List.ext_getElem
    · simp
    · intro n h1 h2
      simp [vector_resize_zero]

theorem roundStart_exec_loop {M : Type} (cfg : Config M) (σ : Schedule) (i : Nat) :
    RoundStart cfg (exec_loop cfg σ (fresh_world cfg) i) := by
  induction i with
  | zero => exact roundStart_fresh cfg
  | succ i ih => exact roundStart_round cfg σ i _ ih

/-- C6 (no cross-round leakage).  On freshly constructed engines, at the start
of every round `i` of `exec` and on every rank: every entry of the local score
buffer is 0, every entry of the owned score buffer is 0 (both have
`vertex_block_size_` entries), the frontier cache has one slot per sample and
every slot is empty, so that resizing a slot to `n` yields `n` false entries. -/
theorem no_cross_round_leakage {M : Type} (cfg : Config M) (σ : Schedule) (i r : Nat) :
    (exec_loop cfg σ (fresh_world cfg) i r).local_count_ = List.replicate cfg.bs 0
    ∧ (exec_loop cfg σ (fresh_world cfg) i r).global_count_ = List.replicate cfg.bs 0
    ∧ (exec_loop cfg σ (fresh_world cfg) i r).frontier_cache_.length = (cfg.samples r).length
    ∧ ∀ slot ∈ (exec_loop cfg σ (fresh_world cfg) i r).frontier_cache_,
        slot.length = 0
        ∧ vector_resize slot cfg.G.num_nodes false = List.replicate cfg.G.num_nodes false := by
  obtain ⟨h1, h2, h3⟩ := roundStart_exec_loop cfg σ i r
  refine ⟨h1, h2, by rw [h3, List.length_replicate], fun slot hs => ?_⟩
  rw [h3] at hs
  rw [List.eq_of_mem_replicate hs]
  exact ⟨rfl, vector_resize_nil_eq _ _⟩

/-! ## Independence of the interleaving -/

theorem build_counters_sched {M : Type} (G : Graph M) (cpu_workers : Nat) (s1 s2 : List Nat)
    (S : Finset Nat) (fc : List (List Bool)) (count_ : List Int) (B E sample_id base : Nat)
    (eMask : M) :
    build_counters G (cpu_pool cpu_workers) s1 S fc count_ B E sample_id base eMask
      = build_counters G (cpu_pool cpu_workers) s2 S fc count_ B E sample_id base eMask := by
  rcases Nat.eq_zero_or_pos cpu_workers with h | h
  · subst h
    unfold build_counters
    rw [cpu_pool_zero_claims, cpu_pool_zero_claims]
  · unfold build_counters
    rw [phase_claims_cpu _ cpu_workers h s1, phase_claims_cpu _ cpu_workers h s2]

theorem build_frontier_sched {M : Type} (G : Graph M) (cpu_workers : Nat) (s1 s2 : List Nat)
    (samples : List M) (S : Finset Nat) (fc : List (List Bool)) :
    build_frontier G (cpu_pool cpu_workers) s1 samples S fc
      = build_frontier G (cpu_pool cpu_workers) s2 samples S fc := by
  rcases Nat.eq_zero_or_pos cpu_workers with h | h
  · subst h
    unfold build_frontier
    rw [cpu_pool_zero_claims, cpu_pool_zero_claims]
  · rw [build_frontier_eq G cpu_workers h, build_frontier_eq G cpu_workers h]

theorem count_block_sched {M : Type} (cfg : Config M) (σ τ : Schedule) (i rank : Nat)
    (fc : List (List Bool)) (S : Finset Nat) (local_count : List Int) (p : Nat) :
    count_block cfg σ i rank fc S local_count p
      = count_block cfg τ i rank fc S local_count p := by
  unfold count_block
  simp only
  congr 1
  funext cnt sample_id
  unfold count_sample
  cases (cfg.samples rank)[sample_id]? with
  | none => rfl
  | some itr => exact build_counters_sched cfg.G cfg.cpu_workers _ _ S fc cnt _ _ _ _ itr

theorem frontier_phase_sched {M : Type} (cfg : Config M) (σ τ : Schedule) (i rank : Nat)
    (e : Engine) : frontier_phase cfg σ i rank e = frontier_phase cfg τ i rank e := by
  unfold frontier_phase
  rw [build_frontier_sched cfg.G cfg.cpu_workers (σ.frontier i rank) (τ.frontier i rank)]

theorem counting_phase_sched {M : Type} (cfg : Config M) (σ τ : Schedule) (i rank : Nat)
    (e : Engine) : counting_phase cfg σ i rank e = counting_phase cfg τ i rank e := by
  unfold counting_phase
  congr 1
  funext acc p
  rw [count_block_sched cfg σ τ]

theorem round_sched {M : Type} (cfg : Config M) (σ τ : Schedule) (i : Nat) (w : World) :
    after_fence cfg σ i w = after_fence cfg τ i w ∧ round cfg σ i w = round cfg τ i w := by
  have h1 : after_frontier cfg σ i w = after_frontier cfg τ i w := by
    funext r
    exact frontier_phase_sched cfg σ τ i r (w r)
  have h2 : round_ops cfg σ i w = round_ops cfg τ i w := by
    unfold round_ops
    congr 1
    funext r
    rw [h1, counting_phase_sched cfg σ τ]
  have h3 : after_fence cfg σ i w = after_fence cfg τ i w := by
    unfold after_fence after_fence_with
    funext r
    rw [h1, h2, counting_phase_sched cfg σ τ]
  exact ⟨h3, by unfold round; rw [h3]⟩

theorem exec_loop_sched {M : Type} (cfg : Config M) (σ τ : Schedule) (w : World) (i : Nat) :
    exec_loop cfg σ w i = exec_loop cfg τ w i := by
  induction i with
  | zero => rfl
  | succ i ih =>
    unfold exec_loop
    rw [ih, (round_sched cfg σ τ i _).2]

/-! ## Scores after the fence and the vertex they select -/

/-- After the fence of a round started with zero buffers and a common seed set,
the owned buffer of rank `r` has `bs` entries and slot `j` holds the true score
of vertex `r * bs + j`. -/
theorem after_fence_score {M : Type} (cfg : Config M) (σ : Schedule) (i : Nat) (w : World)
    (S : Finset Nat) (hw : 1 ≤ cfg.cpu_workers) (hfit : BlocksFit cfg) (h : RoundStart cfg w)
    (hS : ∀ q, (w q).S_ = S) (r : Nat) (hr : r < cfg.world_size) :
    (after_fence cfg σ i w r).global_count_.length = cfg.bs
    ∧ ∀ j, j < cfg.bs →
        (after_fence cfg σ i w r).global_count_.getD j 0
          = true_score cfg σ i w S (block_start cfg.bs r + j) := by
  have hl : ∀ q, q < cfg.world_size → (w q).local_count_ = List.replicate cfg.bs 0 :=
    fun q _ => (h q).1
  have hown : ((fun q => (after_frontier cfg σ i w q).global_count_) r).length = cfg.bs := by
    show (w r).global_count_.length = cfg.bs
    rw [(h r).2.1, List.length_replicate]
  obtain ⟨f1, f2⟩ := fence_getD cfg.bs (round_ops cfg σ i w)
    (fun q => (after_frontier cfg σ i w q).global_count_)
    (round_ops_length cfg σ i w hw hfit hl) r hown
  refine ⟨f1, fun j hj => ?_⟩
  have hz : ((fun q => (after_frontier cfg σ i w q).global_count_) r).getD j 0 = 0 := by
    show (w r).global_count_.getD j 0 = 0
    rw [(h r).2.1, getD_replicate_zero]
  show (fence (round_ops cfg σ i w) (fun q => (after_frontier cfg σ i w q).global_count_)
    r).getD j 0 = _
  rw [f2 j, hz, zero_add, round_ops_sum cfg σ i w S hw hfit hl (fun q _ => hS q) r hr j hj]

theorem contribution_zero {M : Type} (G : Graph M) (samples : List M) (fc : List (List Bool))
    (S : Finset Nat) (s v : Nat) (hv : v ∈ S ∨ G.num_nodes ≤ v) :
    contribution G samples fc S s v = 0 := by
  unfold contribution
  cases samples[s]? with
  | none => rfl
  | some m => simp only [hv, if_true]

/-- A vertex that is in `S`, or an id that is not a vertex, has score zero. -/
theorem true_score_zero {M : Type} (cfg : Config M) (σ : Schedule) (i : Nat) (w : World)
    (S : Finset Nat) (v : Nat) (hv : v ∈ S ∨ cfg.G.num_nodes ≤ v) :
    true_score cfg σ i w S v = 0 := by
  unfold true_score rank_score
  exact Finset.sum_eq_zero (fun q _ => Finset.sum_eq_zero
    (fun s _ => contribution_zero cfg.G _ _ S s v hv))

theorem count_true_pos (l : List Bool) (v : Nat) (h : l.getD v false = true) :
    0 < l.count true := by
  have hv : v < l.length := by
    by_contra hn
    rw [List.getD_eq_default _ _ (not_lt.1 hn)] at h
    exact Bool.false_ne_true h
  rw [List.getD_eq_getElem _ _ hv] at h
  exact List.count_pos_iff.2 (h ▸ List.getElem_mem hv)

theorem contribution_nonneg_pos {M : Type} (G : Graph M) (samples : List M)
    (fc : List (List Bool)) (S : Finset Nat) (s v : Nat)
    (hbfs : ∀ m u vis, 1 ≤ G.BFS_vertex m u vis) :
    0 ≤ contribution G samples fc S s v
    ∧ (s < samples.length → v ∉ S → v < G.num_nodes → 1 ≤ contribution G samples fc S s v) := by
  have hm : ∀ m, 1 ≤ marginal G fc s ((fc.getD s []).count true) m v := by
    intro m
    unfold marginal
    split_ifs with hf
    · have := count_true_pos _ v hf
      exact_mod_cast this
    · exact hbfs _ _ _
  unfold contribution
  constructor
  · cases samples[s]? with
    | none => exact le_refl _
    | some m =>
      simp only
      split_ifs
      · exact le_refl _
      · exact le_trans (by decide) (hm m)
  · intro hs hv1 hv2
    rw [List.getElem?_eq_getElem hs]
    simp only
    rw [if_neg (by rintro (h | h); exact hv1 h; omega)]
    exact hm _

/-- With at least one rank, a sample on every rank and a traversal that counts
its start vertex, every vertex outside `S` has a score of at least 1. -/
theorem true_score_pos {M : Type} (cfg : Config M) (σ : Schedule) (i : Nat) (w : World)
    (S : Finset Nat) (hws : 1 ≤ cfg.world_size)
    (hsamp : ∀ r, r < cfg.world_size → cfg.samples r ≠ [])
    (hbfs : ∀ m u vis, 1 ≤ cfg.G.BFS_vertex m u vis)
    (v : Nat) (hv1 : v ∉ S) (hv2 : v < cfg.G.num_nodes) :
    1 ≤ true_score cfg σ i w S v := by
  have hrank : ∀ q, 0 ≤ rank_score cfg.G (cfg.samples q)
        (after_frontier cfg σ i w q).frontier_cache_ S v
      ∧ (q < cfg.world_size → 1 ≤ rank_score cfg.G (cfg.samples q)
        (after_frontier cfg σ i w q).frontier_cache_ S v) := by
    intro q
    unfold rank_score
    refine ⟨Finset.sum_nonneg (fun s _ =>
      (contribution_nonneg_pos cfg.G _ _ S s v hbfs).1), fun hq => ?_⟩
    have hlen : 0 < (cfg.samples q).length := List.length_pos.2 (hsamp q hq)
    have h0 := (contribution_nonneg_pos cfg.G (cfg.samples q)
      (after_frontier cfg σ i w q).frontier_cache_ S 0 v hbfs).2 hlen hv1 hv2
    exact le_trans h0 (Finset.single_le_sum
      (f := fun s => contribution cfg.G (cfg.samples q)
        (after_frontier cfg σ i w q).frontier_cache_ S s v)
      (fun s _ => (contribution_nonneg_pos cfg.G _ _ S s v hbfs).1)
      (Finset.mem_range.2 hlen))
  unfold true_score
  exact le_trans ((hrank 0).2 (by omega)) (Finset.single_le_sum
    (f := fun q => rank_score cfg.G (cfg.samples q)
      (after_frontier cfg σ i w q).frontier_cache_ S v)
    (fun q _ => (hrank q).1) (Finset.mem_range.2 (by omega)))

theorem owner_slot (n ws v : Nat) (hws : 1 ≤ ws) (hv : v < n) :
    v / vertex_block_size_ n ws < ws
    ∧ v % vertex_block_size_ n ws < vertex_block_size_ n ws
    ∧ block_start (vertex_block_size_ n ws) (v / vertex_block_size_ n ws)
        + v % vertex_block_size_ n ws = v := by
  have hbs := vertex_block_size_pos n ws
  have hlt := lt_world_mul_block n ws hws
  generalize vertex_block_size_ n ws = bs at hbs hlt
  have hdm := Nat.div_add_mod v bs
  have hcomm := Nat.mul_comm bs (v / bs)
  unfold block_start
  refine ⟨?_, Nat.mod_lt v (by omega), by omega⟩
  rw [Nat.div_lt_iff_lt_mul (by omega)]
  omega

/-- The pair proposed by a rank after the fence: the score of the vertex it
names, which is at least the score of every vertex of its block. -/
theorem proposal_after_fence {M : Type} (cfg : Config M) (σ : Schedule) (i : Nat) (w : World)
    (S : Finset Nat) (hw : 1 ≤ cfg.cpu_workers) (hfit : BlocksFit cfg) (h : RoundStart cfg w)
    (hS : ∀ q, (w q).S_ = S) (r : Nat) (hr : r < cfg.world_size) :
    (proposal cfg.bs r (after_fence cfg σ i w r)).1
        = true_score cfg σ i w S (proposal cfg.bs r (after_fence cfg σ i w r)).2
    ∧ (∀ j, j < cfg.bs → true_score cfg σ i w S (block_start cfg.bs r + j)
        ≤ (proposal cfg.bs r (after_fence cfg σ i w r)).1)
    ∧ (∀ j, j < cfg.bs → j < max_element (after_fence cfg σ i w r).global_count_ →
        true_score cfg σ i w S (block_start cfg.bs r + j)
          < (proposal cfg.bs r (after_fence cfg σ i w r)).1)
    ∧ (proposal cfg.bs r (after_fence cfg σ i w r)).2
        = block_start cfg.bs r + max_element (after_fence cfg σ i w r).global_count_
    ∧ max_element (after_fence cfg σ i w r).global_count_ < cfg.bs := by
  obtain ⟨s1, s2⟩ := after_fence_score cfg σ i w S hw hfit h hS r hr
  obtain ⟨m1, m2, m3⟩ := max_element_spec (after_fence cfg σ i w r).global_count_
    (ne_nil_of_length_bs cfg _ s1)
  rw [s1] at m1
  refine ⟨?_, fun j hj => ?_, fun j hj hlt => ?_, rfl, m1⟩
  · show (after_fence cfg σ i w r).global_count_.getD _ 0 = _
    rw [s2 _ m1]
    rfl
  · rw [← s2 j hj]
    exact m2 _ (getD_mem _ _ (by rw [s1]; exact hj))
  · rw [← s2 j hj]
    exact m3 j hlt

/-- The vertex selected in a round that starts with fewer than `n` seeds is a
vertex of the graph that is not yet a seed. -/
theorem selected_fresh {M : Type} (cfg : Config M) (σ : Schedule) (i : Nat) (w : World)
    (S : Finset Nat) (hws : 1 ≤ cfg.world_size) (hw : 1 ≤ cfg.cpu_workers) (hfit : BlocksFit cfg)
    (hsamp : ∀ r, r < cfg.world_size → cfg.samples r ≠ [])
    (hbfs : ∀ m u vis, 1 ≤ cfg.G.BFS_vertex m u vis)
    (h : RoundStart cfg w) (hS : ∀ q, (w q).S_ = S)
    (hsub : ∀ v ∈ S, v < cfg.G.num_nodes) (hcard : S.card < cfg.G.num_nodes) :
    (global_best cfg (after_fence cfg σ i w)).2 ∉ S
    ∧ (global_best cfg (after_fence cfg σ i w)).2 < cfg.G.num_nodes := by
  have hex : ∃ v0, v0 < cfg.G.num_nodes ∧ v0 ∉ S := by
    have hss : S ⊂ Finset.range cfg.G.num_nodes := by
      rw [Finset.ssubset_iff_subset_ne]
      refine ⟨fun v hv => Finset.mem_range.2 (hsub v hv), fun e => ?_⟩
      rw [e, Finset.card_range] at hcard
      exact lt_irrefl _ hcard
    obtain ⟨v0, h1, h2⟩ := Finset.exists_of_ssubset hss
    exact ⟨v0, Finset.mem_range.1 h1, h2⟩
  obtain ⟨v0, hv0, hv0S⟩ := hex
  obtain ⟨o1, o2, o3⟩ := owner_slot cfg.G.num_nodes cfg.world_size v0 hws hv0
  have hscore := true_score_pos cfg σ i w S hws hsamp hbfs v0 hv0S hv0
  obtain ⟨⟨rb, hrb, eb⟩, hdom⟩ := global_best_spec cfg (after_fence cfg σ i w) hws
  obtain ⟨p1, p2, _, _, _⟩ := proposal_after_fence cfg σ i w S hw hfit h hS _ o1
  have hle := p2 _ o2
  have o3' : block_start cfg.bs (v0 / vertex_block_size_ cfg.G.num_nodes cfg.world_size)
      + v0 % vertex_block_size_ cfg.G.num_nodes cfg.world_size = v0 := o3
  rw [o3'] at hle
  have hbest : 1 ≤ (global_best cfg (after_fence cfg σ i w)).1 := by
    rcases hdom _ o1 with hd | ⟨hd, _⟩
    · exact le_trans hscore (le_trans hle (le_of_lt hd))
    · rw [← hd]; exact le_trans hscore hle
  obtain ⟨q1, _, _, _, _⟩ := proposal_after_fence cfg σ i w S hw hfit h hS rb hrb
  rw [eb] at hbest ⊢
  rw [q1] at hbest
  constructor
  · intro hin
    rw [true_score_zero cfg σ i w S _ (Or.inl hin)] at hbest
    exact absurd hbest (by decide)
  · by_contra hge
    rw [true_score_zero cfg σ i w S _ (Or.inr (not_lt.1 hge))] at hbest
    exact absurd hbest (by decide)

theorem seedsAgree_fresh {M : Type} (cfg : Config M) : SeedsAgree cfg 0 (fresh_world cfg) :=
  ⟨∅, fun _ => rfl, rfl, fun v hv => absurd hv (Finset.not_mem_empty v)⟩

theorem round_S {M : Type} (cfg : Config M) (σ : Schedule) (i : Nat) (w : World) (r : Nat) :
    (round cfg σ i w r).S_
      = insert (global_best cfg (after_fence cfg σ i w)).2 (w r).S_ := rfl

/-- One round adds one new vertex to the common seed set. -/
theorem seedsAgree_round {M : Type} (cfg : Config M) (σ : Schedule) (i : Nat) (w : World)
    (hws : 1 ≤ cfg.world_size) (hw : 1 ≤ cfg.cpu_workers) (hfit : BlocksFit cfg)
    (hsamp : ∀ r, r < cfg.world_size → cfg.samples r ≠ [])
    (hbfs : ∀ m u vis, 1 ≤ cfg.G.BFS_vertex m u vis)
    (h : RoundStart cfg w) (hi : i < cfg.G.num_nodes) (hs : SeedsAgree cfg i w) :
    SeedsAgree cfg (i + 1) (round cfg σ i w)
    ∧ ∀ r, (global_best cfg (after_fence cfg σ i w)).2 ∉ (w r).S_
        ∧ (global_best cfg (after_fence cfg σ i w)).2 < cfg.G.num_nodes := by
  obtain ⟨S, hS, hcard, hsub⟩ := hs
  obtain ⟨f1, f2⟩ := selected_fresh cfg σ i w S hws hw hfit hsamp hbfs h hS hsub (by omega)
  refine ⟨⟨insert (global_best cfg (after_fence cfg σ i w)).2 S, fun r => ?_, ?_, ?_⟩,
    fun r => ⟨by rw [hS r]; exact f1, f2⟩⟩
  · rw [round_S, hS r]
  · rw [Finset.card_insert_of_not_mem f1, hcard]
  · intro v hv
    rcases Finset.mem_insert.1 hv with e | e
    · rw [e]; exact f2
    · exact hsub v e

theorem seedsAgree_exec_loop {M : Type} (cfg : Config M) (σ : Schedule)
    (hws : 1 ≤ cfg.world_size) (hw : 1 ≤ cfg.cpu_workers) (hfit : BlocksFit cfg)
    (hsamp : ∀ r, r < cfg.world_size → cfg.samples r ≠ [])
    (hbfs : ∀ m u vis, 1 ≤ cfg.G.BFS_vertex m u vis) (i : Nat) (hi : i ≤ cfg.G.num_nodes) :
    SeedsAgree cfg i (exec_loop cfg σ (fresh_world cfg) i) := by
  induction i with
  | zero => exact seedsAgree_fresh cfg
  | succ i ih =>
    exact (seedsAgree_round cfg σ i _ hws hw hfit hsamp hbfs (roundStart_exec_loop cfg σ i)
      (by omega) (ih (by omega))).1

/-- Growth of the seed set when no block starts beyond `n`.  For a graph with
`n` vertices, `k ≤ n`, at least one rank and one CPU worker, a non-empty sample
range on every rank and a traversal that counts at least its start vertex: every
round `i < k` of `exec` on fresh engines inserts a vertex of the graph that is
not already in `S`; after `i` rounds `S` has `i` elements on every rank; and the
returned set has exactly `k` distinct vertex ids. -/
theorem seed_set_grows_of_fit {M : Type} (cfg : Config M) (σ : Schedule) (k : Nat)
    (hws : 1 ≤ cfg.world_size) (hw : 1 ≤ cfg.cpu_workers)
    (hfit : BlocksFit cfg) (hk : k ≤ cfg.G.num_nodes)
    (hsamp : ∀ r, r < cfg.world_size → cfg.samples r ≠ [])
    (hbfs : ∀ m u vis, 1 ≤ cfg.G.BFS_vertex m u vis) :
    (∀ i, i < k → ∀ r,
        selected cfg σ i ∉ (exec_loop cfg σ (fresh_world cfg) i r).S_
        ∧ selected cfg σ i < cfg.G.num_nodes
        ∧ (exec_loop cfg σ (fresh_world cfg) (i + 1) r).S_
            = insert (selected cfg σ i) (exec_loop cfg σ (fresh_world cfg) i r).S_)
    ∧ (∀ i, i ≤ k → ∀ r, (exec_loop cfg σ (fresh_world cfg) i r).S_.card = i)
    ∧ (∀ r, (exec cfg σ k r).card = k) := by
  have hcard : ∀ i, i ≤ k → ∀ r, (exec_loop cfg σ (fresh_world cfg) i r).S_.card = i := by
    intro i hi r
    obtain ⟨S, hS, hc, _⟩ := seedsAgree_exec_loop cfg σ hws hw hfit hsamp hbfs i (by omega)
    rw [hS r, hc]
  refine ⟨fun i hi r => ?_, hcard, fun r => hcard k (le_refl k) r⟩
  have hstep := (seedsAgree_round cfg σ i _ hws hw hfit hsamp hbfs (roundStart_exec_loop cfg σ i)
    (by omega) (seedsAgree_exec_loop cfg σ hws hw hfit hsamp hbfs i (by omega))).2 r
  exact ⟨hstep.1, hstep.2, rfl⟩

/-! ## Empty sample range -/

theorem true_score_no_samples {M : Type} (cfg : Config M) (σ : Schedule) (i : Nat) (w : World)
    (S : Finset Nat) (hzero : ∀ r, r < cfg.world_size → cfg.samples r = []) (v : Nat) :
    true_score cfg σ i w S v = 0 := by
  unfold true_score rank_score
  apply Finset.sum_eq_zero
  intro q hq
  rw [hzero q (Finset.mem_range.1 hq)]
  rfl

theorem count_block_no_samples {M : Type} (cfg : Config M) (σ : Schedule) (i rank : Nat)
    (fc : List (List Bool)) (S : Finset Nat) (local_count : List Int) (p : Nat)
    (hzero : cfg.samples rank = []) :
    count_block cfg σ i rank fc S local_count p = local_count := by
  unfold count_block
  rw [hzero]
  rfl

theorem counting_phase_no_samples {M : Type} (cfg : Config M) (σ : Schedule) (i rank : Nat)
    (e : Engine) (h0 : e.local_count_ = List.replicate cfg.bs 0)
    (hzero : cfg.samples rank = []) :
    ∀ op ∈ (counting_phase cfg σ i rank e).1, op.2 = List.replicate cfg.bs 0 := by
  have key : (∀ op ∈ (counting_phase cfg σ i rank e).1, op.2 = List.replicate cfg.bs 0)
      ∧ (counting_phase cfg σ i rank e).2 = List.replicate cfg.bs 0 := by
    unfold counting_phase
    refine foldl_invariant _
      (fun (acc : List (Nat × List Int) × List Int) =>
        (∀ op ∈ acc.1, op.2 = List.replicate cfg.bs 0) ∧ acc.2 = List.replicate cfg.bs 0)
      ?_ _ _ ?_
    · intro acc p ⟨h1, h2⟩
      have hc : count_block cfg σ i rank e.frontier_cache_ e.S_ acc.2 p
          = List.replicate cfg.bs 0 := by
        rw [count_block_no_samples cfg σ i rank _ _ _ p hzero, h2]
      refine ⟨fun op hop => ?_, by simp only [hc, List.length_replicate]⟩
      rcases List.mem_append.1 hop with h | h
      · exact h1 op h
      · rw [List.mem_singleton.1 h]
        simp only [hc]
        exact List.take_of_length_le (by rw [List.length_replicate])
    · exact ⟨fun op hop => absurd hop (List.not_mem_nil op), h0⟩
  exact key.1

/-- With no samples on any rank the owned buffers are still zero after the
fence. -/
theorem after_fence_no_samples {M : Type} (cfg : Config M) (σ : Schedule) (i : Nat) (w : World)
    (hzero : ∀ r, r < cfg.world_size → cfg.samples r = [])
    (h : RoundStart cfg w) (r : Nat) :
    (after_fence cfg σ i w r).global_count_ = List.replicate cfg.bs 0 := by
  have hops : ∀ op ∈ round_ops cfg σ i w, op.2 = List.replicate cfg.bs 0 := by
    intro op hop
    unfold round_ops at hop
    obtain ⟨q, hq, hop2⟩ := List.mem_flatMap.1 hop
    exact counting_phase_no_samples cfg σ i q (after_frontier cfg σ i w q) (h q).1
      (hzero q (List.mem_range.1 hq)) op hop2
  have hown : ((fun q => (after_frontier cfg σ i w q).global_count_) r).length = cfg.bs := by
    show (w r).global_count_.length = cfg.bs
    rw [(h r).2.1, List.length_replicate]
  obtain ⟨f1, f2⟩ := fence_getD cfg.bs (round_ops cfg σ i w)
    (fun q => (after_frontier cfg σ i w q).global_count_)
    (fun op hop => by rw [hops op hop, List.length_replicate]) r hown
  show fence (round_ops cfg σ i w) (fun q => (after_frontier cfg σ i w q).global_count_) r = _
  apply list_ext_getD
  · rw [f1, List.length_replicate]
  · intro j _
    rw [f2 j, getD_replicate_zero]
    have hz : ((fun q => (after_frontier cfg σ i w q).global_count_) r).getD j 0 = 0 := by
      show (w r).global_count_.getD j 0 = 0
      rw [(h r).2.1, getD_replicate_zero]
    rw [hz, zero_add]
    apply List.sum_eq_zero
    intro x hx
    obtain ⟨op, hop, rfl⟩ := List.mem_map.1 hx
    show (if op.1 = r then op.2.getD j 0 else 0) = 0
    by_cases hr : op.1 = r
    · rw [if_pos hr, hops op hop, getD_replicate_zero]
    · rw [if_neg hr]

theorem max_element_replicate_zero (n : Nat) (hn : 1 ≤ n) :
    max_element (List.replicate n (0 : Int)) = 0 := by
  have hne : List.replicate n (0 : Int) ≠ [] := by
    intro e
    have := congrArg List.length e
    rw [List.length_replicate, List.length_nil] at this
    omega
  obtain ⟨_, _, m3⟩ := max_element_spec _ hne
  by_contra hpos
  have := m3 0 (Nat.pos_of_ne_zero hpos)
  rw [getD_replicate_zero, getD_replicate_zero] at this
  exact lt_irrefl _ this

/-- With no samples on any rank every score is zero, rank 0 proposes `(0, 0)`
and the reduction returns it. -/
theorem global_best_no_samples {M : Type} (cfg : Config M) (σ : Schedule) (i : Nat) (w : World)
    (hws : 1 ≤ cfg.world_size)
    (hzero : ∀ r, r < cfg.world_size → cfg.samples r = [])
    (h : RoundStart cfg w) :
    global_best cfg (after_fence cfg σ i w) = (0, 0) := by
  have hbs : 1 ≤ cfg.bs := vertex_block_size_pos _ _
  have hprop : ∀ r, proposal cfg.bs r (after_fence cfg σ i w r) = (0, r * cfg.bs) := by
    intro r
    unfold proposal
    rw [after_fence_no_samples cfg σ i w hzero h r, max_element_replicate_zero _ hbs]
    show ((List.replicate cfg.bs (0 : Int)).getD 0 0, r * cfg.bs + 0) = (0, r * cfg.bs)
    rw [getD_replicate_zero, Nat.add_zero]
  obtain ⟨⟨rb, hrb, eb⟩, hdom⟩ := global_best_spec cfg (after_fence cfg σ i w) hws
  have hval : (global_best cfg (after_fence cfg σ i w)).1 = 0 := by rw [eb, hprop]
  refine Prod.ext hval ?_
  rcases hdom 0 (by omega) with hd | ⟨_, hd⟩
  · rw [hprop, hval] at hd
    exact absurd hd (lt_irrefl _)
  · rw [hprop] at hd
    simp only [Nat.zero_mul] at hd
    exact Nat.le_zero.1 hd

theorem exec_loop_no_samples {M : Type} (cfg : Config M) (σ : Schedule)
    (hws : 1 ≤ cfg.world_size) (_hw : 1 ≤ cfg.cpu_workers)
    (hzero : ∀ r, r < cfg.world_size → cfg.samples r = []) (i : Nat) :
    ∀ r, (exec_loop cfg σ (fresh_world cfg) i r).S_ = if i = 0 then ∅ else {0} := by
  induction i with
  | zero => intro r; rfl
  | succ i ih =>
    intro r
    show (round cfg σ i (exec_loop cfg σ (fresh_world cfg) i) r).S_ = _
    rw [round_S, global_best_no_samples cfg σ i _ hws hzero
      (roundStart_exec_loop cfg σ i), ih r]
    by_cases e : i = 0
    · simp [e]
    · simp [e]

/-- C9 fails as stated: with `CFG.samples = 1` on 2 ranks every rank gets an
empty sample range, and `exec` with `k = 1` is not rejected: it runs the round
and returns the set `{0}`. -/
theorem zero_samples_rejected_counterexample :
    HillClimbing_samples 1 2 = 0
    ∧ (edgeless_config 3 2 1 (HillClimbing_samples 1 2)).samples 0 = []
    ∧ exec (edgeless_config 3 2 1 (HillClimbing_samples 1 2))
        ⟨fun _ _ => [], fun _ _ _ _ => []⟩ 1 0 = {0}
    ∧ exec (edgeless_config 3 2 1 (HillClimbing_samples 1 2))
        ⟨fun _ _ => [], fun _ _ _ _ => []⟩ 1 0 ≠ ∅ := by
  decide

/-- C9 as amended.  With an empty sample range on every rank, at least one rank
and one CPU worker, `exec` is not rejected: every round it executes finds all
scores zero and selects vertex id 0, so 0 is in `S` after every round and for
every `k ≥ 1` the returned set is `{0}`. -/
theorem zero_samples_selects_vertex_zero {M : Type} (cfg : Config M) (σ : Schedule) (k : Nat)
    (hws : 1 ≤ cfg.world_size) (hw : 1 ≤ cfg.cpu_workers)
    (hzero : ∀ r, r < cfg.world_size → cfg.samples r = []) (hk : 1 ≤ k) :
    (∀ i, selected cfg σ i = 0)
    ∧ (∀ i r, 0 ∈ (exec_loop cfg σ (fresh_world cfg) (i + 1) r).S_)
    ∧ (∀ r, exec cfg σ k r = {0}) := by
  refine ⟨fun i => ?_, fun i r => ?_, fun r => ?_⟩
  · unfold selected
    rw [global_best_no_samples cfg σ i _ hws hzero (roundStart_exec_loop cfg σ i)]
  · rw [exec_loop_no_samples cfg σ hws hw hzero (i + 1) r, if_neg (Nat.succ_ne_zero i)]
    exact Finset.mem_singleton_self 0
  · unfold exec
    rw [exec_loop_no_samples cfg σ hws hw hzero k r, if_neg (by omega)]

/-- Witness of C9 as amended: 3 vertices, 2 ranks, no samples, `k = 2`. -/
theorem zero_samples_selects_vertex_zero_witness :
    (1 ≤ (edgeless_config 3 2 1 0).world_size ∧ 1 ≤ (edgeless_config 3 2 1 0).cpu_workers
      ∧ (∀ r, r < (edgeless_config 3 2 1 0).world_size → (edgeless_config 3 2 1 0).samples r = []))
    ∧ ∀ r, exec (edgeless_config 3 2 1 0) ⟨fun _ _ => [], fun _ _ _ _ => []⟩ 2 r = {0} :=
  ⟨⟨by decide, by decide, fun _ _ => rfl⟩,
    (zero_samples_selects_vertex_zero (edgeless_config 3 2 1 0)
      ⟨fun _ _ => [], fun _ _ _ _ => []⟩ 2 (by decide) (by decide) (fun _ _ => rfl)
      (by decide)).2.2⟩

/-! ## The chain scenario -/

theorem after_frontier_sched {M : Type} (cfg : Config M) (σ τ : Schedule) (i : Nat) (w : World) :
    after_frontier cfg σ i w = after_frontier cfg τ i w := by
  funext r
  exact frontier_phase_sched cfg σ τ i r (w r)

/-- C11 (end-to-end chain scenario).  On the chain `0 -> 1 -> 2 -> 3` with one
sample in which all edges are live, one rank and the traversal count taken as the
size of the reachable set, for every interleaving of the worker's claims: round 1
of `exec` on a fresh engine finds the scores 4, 3, 2, 1 and selects vertex 0, so
`k = 1` returns `{0}`; in round 2 the frontier from `{0}` holds every vertex, the
vertices 1, 2, 3 each score the base count 4, and vertex 1 is selected, so `k = 2`
returns `{0, 1}`. -/
theorem chain_scenario (σ : Schedule) :
    (after_fence chain_config σ 0 (fresh_world chain_config) 0).global_count_
        = [4, 3, 2, 1, 0]
    ∧ selected chain_config σ 0 = 0
    ∧ exec chain_config σ 1 0 = {0}
    ∧ (after_frontier chain_config σ 1
          (exec_loop chain_config σ (fresh_world chain_config) 1) 0).frontier_cache_
        = [[true, true, true, true]]
    ∧ (after_fence chain_config σ 1
          (exec_loop chain_config σ (fresh_world chain_config) 1) 0).global_count_
        = [0, 4, 4, 4, 0]
    ∧ selected chain_config σ 1 = 1
    ∧ exec chain_config σ 2 0 = {0, 1} := by
  refine ⟨?_, ?_, ?_, ?_, ?_, ?_, ?_⟩
  · rw [(round_sched chain_config σ idle_schedule 0 _).1]
    decide
  · unfold selected
    rw [exec_loop_sched chain_config σ idle_schedule,
      (round_sched chain_config σ idle_schedule 0 _).1]
    decide
  · unfold exec
    rw [exec_loop_sched chain_config σ idle_schedule]
    decide
  · rw [exec_loop_sched chain_config σ idle_schedule,
      after_frontier_sched chain_config σ idle_schedule]
    decide
  · rw [exec_loop_sched chain_config σ idle_schedule,
      (round_sched chain_config σ idle_schedule 1 _).1]
    decide
  · unfold selected
    rw [exec_loop_sched chain_config σ idle_schedule,
      (round_sched chain_config σ idle_schedule 1 _).1]
    decide
  · unfold exec
    rw [exec_loop_sched chain_config σ idle_schedule]
    decide

/-! ## GPU frontier decoding -/

theorem bit_mask_ne_zero (v : Nat) : bit_mask v ≠ 0 := by
  unfold bit_mask
  have hlt : v % int_bits < int_bits := Nat.mod_lt _ (by decide)
  rw [Nat.shiftLeft_eq, Nat.one_mul,
    Nat.mod_eq_of_lt (Nat.pow_lt_pow_right (by decide) hlt)]
  exact (Nat.two_pow_pos _).ne'

theorem getD_set_bool (l : List Bool) (i j : Nat) (x : Bool) (hi : i < l.length) :
    (l.set i x).getD j false = if i = j then x else l.getD j false := by
  simp only [List.getD_eq_getElem?_getD, List.getElem?_set, hi, if_true]
  split_ifs <;> rfl

theorem gpu_decode_step_getD (visited_ : List Nat) (slot : List Bool) (v j : Nat)
    (hv : v < slot.length) :
    (gpu_decode_step visited_ slot v).length = slot.length
    ∧ (gpu_decode_step visited_ slot v).getD j false
      = (slot.getD j false
          || (decide (v = j) && decide (visited_.getD (v / int_bits) 0 ≠ 0))) := by
  unfold gpu_decode_step logical_and
  have hm := bit_mask_ne_zero v
  by_cases hw : visited_.getD (v / int_bits) 0 = 0
  · have h1 : ¬ (visited_.getD (v / int_bits) 0 ≠ 0 ∧ bit_mask v ≠ 0) := fun h => h.1 hw
    have h2 : decide (visited_.getD (v / int_bits) 0 ≠ 0) = false :=
      decide_eq_false (not_not.2 hw)
    rw [if_neg h1, if_neg (by decide), h2, Bool.and_false, Bool.or_false]
    exact ⟨rfl, rfl⟩
  · have h2 : decide (visited_.getD (v / int_bits) 0 ≠ 0) = true := decide_eq_true hw
    have h3 : visited_.getD (v / int_bits) 0 ≠ 0 ∧ bit_mask v ≠ 0 := ⟨hw, hm⟩
    rw [if_pos h3, if_pos rfl, h2, Bool.and_true, getD_set_bool _ _ _ _ hv]
    refine ⟨List.length_set _ _ _, ?_⟩
    by_cases e : v = j
    · rw [if_pos e, decide_eq_true e, Bool.or_true]
    · rw [if_neg e, decide_eq_false e, Bool.or_false]

/-- What the decoding loop of the GPU worker leaves in a slot after the vertices
`0..m-1`: entry `j` has been set when the whole word `j / 32` of the bitmap is
non-zero. -/
theorem gpu_decode_getD (visited_ : List Nat) (slot : List Bool) (m : Nat)
    (hm : m ≤ slot.length) :
    ((List.range m).foldl (gpu_decode_step visited_) slot).length = slot.length
    ∧ ∀ j, ((List.range m).foldl (gpu_decode_step visited_) slot).getD j false
        = (slot.getD j false
            || (decide (j < m) && decide (visited_.getD (j / int_bits) 0 ≠ 0))) := by
  induction m with
  | zero =>
    refine ⟨rfl, fun j => ?_⟩
    rw [decide_eq_false (Nat.not_lt_zero j), Bool.false_and, Bool.or_false]
    rfl
  | succ m ih =>
    obtain ⟨r1, r2⟩ := ih (by omega)
    rw [List.range_succ, List.foldl_append, List.foldl_cons, List.foldl_nil]
    refine ⟨(gpu_decode_step_getD visited_ _ m 0 (by rw [r1]; omega)).1.trans r1, fun j => ?_⟩
    rw [(gpu_decode_step_getD visited_ _ m j (by rw [r1]; omega)).2, r2 j]
    by_cases e : m = j
    · subst e
      rw [decide_eq_false (lt_irrefl m), decide_eq_true (Nat.lt_succ_self m),
        decide_eq_true rfl]
      simp
    · rw [decide_eq_false e, Bool.false_and, Bool.or_false]
      by_cases h : j < m
      · rw [decide_eq_true h, decide_eq_true (show j < m + 1 by omega)]
      · rw [decide_eq_false h, decide_eq_false (show ¬ j < m + 1 by omega)]

theorem getD_replicate_false (n j : Nat) : (List.replicate n false).getD j false = false := by
  rw [List.getD_eq_getElem?_getD, List.getElem?_replicate]
  split_ifs <;> rfl

/-- C12 does not hold on the code.  Decoding a visited bitmap into an empty
frontier slot, the GPU worker sets entry `j < n` exactly when the whole word
`j / 32` of the bitmap is non-zero, not when the bit of `j` is set.  For 2
vertices and the bitmap `[1]` (only vertex 0 visited) it stores `[true, true]`,
although the bit of vertex 1 is clear and the bitmap stands for `[true, false]`,
which is also what the CPU worker stores when the traversal from `{0}` reaches
only vertex 0. -/
theorem gpu_frontier_decoding_word_test :
    (∀ (visited_ : List Nat) (n j : Nat),
        ((List.range n).foldl (gpu_decode_step visited_) (vector_resize [] n false)).getD j false
          = (decide (j < n) && decide (visited_.getD (j / int_bits) 0 ≠ 0)))
    ∧ gpu_batch_frontier 2 (fun (_ : Unit) _ => [1]) [()] {0} [[]] 0 1 0 = [[true, true]]
    ∧ vertex_bit [1] 1 = false
    ∧ bitmap_vector 2 [1] = [true, false]
    ∧ batch_frontier (edgeless_graph 2) [()] {0} [[]] 0 1 0 = [[true, false]] := by
  refine ⟨fun visited_ n j => ?_, by decide, by decide, by decide, by decide⟩
  rw [vector_resize_nil_eq]
  have h := (gpu_decode_getD visited_ (List.replicate n false) n
    (by rw [List.length_replicate])).2 j
  rw [h, getD_replicate_false, Bool.false_or]

/-! ## The selected id is a vertex -/

theorem contribution_nonneg {M : Type} (G : Graph M) (samples : List M)
    (fc : List (List Bool)) (S : Finset Nat) (s v : Nat)
    (hbfs : ∀ m u vis, 0 ≤ G.BFS_vertex m u vis) :
    0 ≤ contribution G samples fc S s v := by
  unfold contribution
  cases samples[s]? with
  | none => exact le_refl _
  | some m =>
    simp only
    split_ifs
    · exact le_refl _
    · unfold marginal
      split_ifs
      · exact Int.ofNat_nonneg _
      · exact hbfs _ _ _

theorem true_score_nonneg {M : Type} (cfg : Config M) (σ : Schedule) (i : Nat) (w : World)
    (S : Finset Nat) (hbfs : ∀ m u vis, 0 ≤ cfg.G.BFS_vertex m u vis) (v : Nat) :
    0 ≤ true_score cfg σ i w S v := by
  unfold true_score rank_score
  exact Finset.sum_nonneg (fun q _ => Finset.sum_nonneg
    (fun s _ => contribution_nonneg cfg.G _ _ S s v hbfs))

/-- All ranks hold the same seed set at the start of every round of `exec`. -/
theorem seeds_common_exec_loop {M : Type} (cfg : Config M) (σ : Schedule) (i : Nat) :
    ∃ S : Finset Nat, ∀ r, (exec_loop cfg σ (fresh_world cfg) i r).S_ = S := by
  induction i with
  | zero => exact ⟨∅, fun _ => rfl⟩
  | succ i ih =>
    obtain ⟨S, hS⟩ := ih
    refine ⟨insert (global_best cfg (after_fence cfg σ i
      (exec_loop cfg σ (fresh_world cfg) i))).2 S, fun r => ?_⟩
    show (round cfg σ i (exec_loop cfg σ (fresh_world cfg) i) r).S_ = _
    rw [round_S, hS r]

/-- When no score is negative, the id returned by the reduction is below `n`:
a winner with a positive score is a vertex, and when every score is zero the
pair `(0, 0)` of rank 0 wins. -/
theorem global_best_lt {M : Type} (cfg : Config M) (σ : Schedule) (i : Nat) (w : World)
    (S : Finset Nat) (hn : 1 ≤ cfg.G.num_nodes) (hws : 1 ≤ cfg.world_size)
    (hw : 1 ≤ cfg.cpu_workers)
    (hfit : BlocksFit cfg) (hbfs : ∀ m u vis, 0 ≤ cfg.G.BFS_vertex m u vis)
    (h : RoundStart cfg w) (hS : ∀ q, (w q).S_ = S) :
    (global_best cfg (after_fence cfg σ i w)).2 < cfg.G.num_nodes := by
  have hbs : 1 ≤ cfg.bs := vertex_block_size_pos _ _
  obtain ⟨⟨rb, hrb, eb⟩, hdom⟩ := global_best_spec cfg (after_fence cfg σ i w) hws
  obtain ⟨b1, _, _, _, _⟩ := proposal_after_fence cfg σ i w S hw hfit h hS rb hrb
  obtain ⟨z1, _, z3, z4, _⟩ := proposal_after_fence cfg σ i w S hw hfit h hS 0 (by omega)
  by_contra hge
  have hval : (global_best cfg (after_fence cfg σ i w)).1 = 0 := by
    rw [eb, b1, ← eb]
    exact true_score_zero cfg σ i w S _ (Or.inr (not_lt.1 hge))
  have hz0 := true_score_nonneg cfg σ i w S hbfs
    (proposal cfg.bs 0 (after_fence cfg σ i w 0)).2
  rw [← z1] at hz0
  rcases hdom 0 (by omega) with hd | ⟨hd1, hd2⟩
  · rw [hval] at hd
    exact absurd hz0 (not_le.2 hd)
  · have hmax : max_element (after_fence cfg σ i w 0).global_count_ = 0 := by
      by_contra hne
      have hlt := z3 0 (by omega) (Nat.pos_of_ne_zero hne)
      rw [hd1, hval] at hlt
      exact absurd (true_score_nonneg cfg σ i w S hbfs _) (not_le.2 hlt)
    have hidx : (proposal cfg.bs 0 (after_fence cfg σ i w 0)).2 = 0 := by
      rw [z4, hmax]
      unfold block_start
      omega
    rw [hidx] at hd2
    omega

/-- The selected id when no block starts beyond `n`.  For `n ≥ 1` vertices, at
least one rank and one CPU worker, and traversal counts that are never negative:
in every round started with zero buffers and a common seed set, and so in every
round of `exec` on fresh engines, the id inserted into `S` is below `n`; this
holds even though the `world_size` score buffers together have
`world_size * bs > n` slots and a rank whose block starts at `n` proposes an id
that is not below `n`. -/
theorem selected_is_vertex_of_fit {M : Type} (cfg : Config M) (σ : Schedule)
    (hn : 1 ≤ cfg.G.num_nodes) (hws : 1 ≤ cfg.world_size) (hw : 1 ≤ cfg.cpu_workers)
    (hfit : BlocksFit cfg)
    (hbfs : ∀ m u vis, 0 ≤ cfg.G.BFS_vertex m u vis) :
    (∀ (i : Nat) (w : World) (S : Finset Nat), RoundStart cfg w → (∀ q, (w q).S_ = S) →
        (global_best cfg (after_fence cfg σ i w)).2 < cfg.G.num_nodes
        ∧ (∀ r, (round cfg σ i w r).S_
            = insert (global_best cfg (after_fence cfg σ i w)).2 (w r).S_)
        ∧ (∀ r, r < cfg.world_size → cfg.G.num_nodes ≤ block_start cfg.bs r →
            cfg.G.num_nodes ≤ (proposal cfg.bs r (after_fence cfg σ i w r)).2))
    ∧ (∀ i, selected cfg σ i < cfg.G.num_nodes)
    ∧ (∀ i r, ∀ v ∈ (exec_loop cfg σ (fresh_world cfg) i r).S_, v < cfg.G.num_nodes)
    ∧ cfg.G.num_nodes < cfg.world_size * cfg.bs := by
  have hsel : ∀ i, selected cfg σ i < cfg.G.num_nodes := by
    intro i
    obtain ⟨S, hS⟩ := seeds_common_exec_loop cfg σ i
    exact global_best_lt cfg σ i _ S hn hws hw hfit hbfs (roundStart_exec_loop cfg σ i) hS
  refine ⟨fun i w S h hS => ⟨global_best_lt cfg σ i w S hn hws hw hfit hbfs h hS, fun r => rfl,
    fun r _ hr => ?_⟩, hsel, fun i => ?_, lt_world_mul_block _ _ hws⟩
  · show cfg.G.num_nodes
      ≤ r * cfg.bs + max_element (after_fence cfg σ i w r).global_count_
    unfold block_start at hr
    omega
  · induction i with
    | zero => intro r v hv; exact absurd hv (Finset.not_mem_empty v)
    | succ i ih =>
      intro r v hv
      have hv2 : v ∈ insert (selected cfg σ i)
          (exec_loop cfg σ (fresh_world cfg) i r).S_ := hv
      rcases Finset.mem_insert.1 hv2 with e | e
      · rw [e]; exact hsel i
      · exact ih r v e

/-! ## A block that starts beyond the last vertex -/

/-- With CPU workers the local buffer after block step `p` does not depend on the
interleaving: on a block with `start ≤ end` every sample is one pass of
`batch_counters` over the block, and on a block with `end < start` it is
`wrapped_counters`. -/
theorem count_block_cpu {M : Type} (cfg : Config M) (σ : Schedule) (i rank : Nat)
    (fc : List (List Bool)) (S : Finset Nat) (local_count : List Int) (p : Nat)
    (hws : 1 ≤ cfg.world_size) (hw : 1 ≤ cfg.cpu_workers)
    (hn : cfg.G.num_nodes < vertex_modulus)
    (hb : cfg.world_size * cfg.bs < vertex_modulus) :
    count_block cfg σ i rank fc S local_count p
      = (List.range (cfg.samples rank).length).foldl
          (fun cnt sample_id =>
            match (cfg.samples rank)[sample_id]? with
            | none => cnt
            | some itr =>
              if block_start cfg.bs ((p + rank) % cfg.world_size)
                  ≤ block_end cfg.bs cfg.G.num_nodes ((p + rank) % cfg.world_size) then
                batch_counters cfg.G S fc cnt
                  (block_start cfg.bs ((p + rank) % cfg.world_size))
                  (block_end cfg.bs cfg.G.num_nodes ((p + rank) % cfg.world_size))
                  sample_id ((fc.getD sample_id []).count true) itr
              else
                wrapped_counters cfg.G S fc cnt
                  (block_start cfg.bs ((p + rank) % cfg.world_size))
                  (block_end cfg.bs cfg.G.num_nodes ((p + rank) % cfg.world_size))
                  sample_id ((fc.getD sample_id []).count true) itr)
          local_count := by
  have hcb : (p + rank) % cfg.world_size < cfg.world_size := Nat.mod_lt _ (by omega)
  have hB : block_start cfg.bs ((p + rank) % cfg.world_size) < vertex_modulus := by
    unfold block_start
    exact lt_of_le_of_lt (Nat.mul_le_mul_right _ (le_of_lt hcb)) hb
  have hE : block_end cfg.bs cfg.G.num_nodes ((p + rank) % cfg.world_size)
      < vertex_modulus := by
    unfold block_end
    exact lt_of_le_of_lt (Nat.min_le_right _ _) hn
  unfold count_block
  simp only
  congr 1
  funext cnt sample_id
  unfold count_sample
  cases (cfg.samples rank)[sample_id]? with
  | none => rfl
  | some itr =>
    simp only
    by_cases hle : block_start cfg.bs ((p + rank) % cfg.world_size)
        ≤ block_end cfg.bs cfg.G.num_nodes ((p + rank) % cfg.world_size)
    · rw [if_pos hle]
      exact build_counters_eq cfg.G cfg.cpu_workers hw _ S fc cnt _ _ _ _ itr hle hE
    · rw [if_neg hle]
      exact build_counters_wrapped cfg.G cfg.cpu_workers hw _ S fc cnt _ _ _ _ itr
        (not_le.1 hle) hB

/-- The pair returned by the reduction of the first round on 8 vertices without
live edges, 4 ranks, one CPU worker and one sample per rank: block 3 is the range
from 9 to 8, its counters regions count the vertices 1 to 7 again, and rank 3
wins with the id 10. -/
theorem global_best_beyond_n (σ : Schedule) :
    global_best (edgeless_config 8 4 1 1)
        (after_fence (edgeless_config 8 4 1 1) σ 0 (fresh_world (edgeless_config 8 4 1 1)))
      = (12, 10) := by
  rw [(round_sched _ σ idle_schedule 0 _).1]
  have key := fun i rank fc S lc p =>
    count_block_cpu (edgeless_config 8 4 1 1) idle_schedule i rank fc S lc p
      (by decide) (by decide) (by decide) (by decide)
  simp only [global_best, after_fence, after_fence_with, round_ops, counting_phase, key]
  decide

theorem edgeless_BFS_vertex_pos (n : Nat) (m : Unit) (u : Nat) (vis : List Bool) :
    1 ≤ (edgeless_graph n).BFS_vertex m u vis := by
  show (1 : Int) ≤ (vis.count true : Int) + (if vis.getD u false then 0 else 1)
  have h0 : (0 : Int) ≤ (vis.count true : Int) := Int.ofNat_nonneg _
  split_ifs with hv
  · have := count_true_pos vis u hv
    omega
  · omega

/-- C3 does not hold on the code when a block starts beyond the last vertex.  On 8
vertices without live edges, 4 ranks (`bs = 3`), one CPU worker and one sample per
rank, in the first round on fresh engines and for every interleaving: block 3 is
the range from `start = 9` to `end = 8`; the unsigned `E - B` is `2 ^ 32 - 1`, the
claim at offset `2 ^ 32 - 8` has `first = 2 ^ 32 + 1`, which is vertex 1, and
`batch_counters` counts the vertices 1 to 7 once more, so rank 0 accumulates
`[2, 3, 2]` into rank 3 (as does every rank) and after the fence the owned buffer
of rank 3 is `[8, 12, 8]`, while the sum of the contributions for the ids 9, 10, 11
of its slots is 0. -/
theorem accumulation_block_beyond_n (σ : Schedule) :
    RoundStart (edgeless_config 8 4 1 1) (fresh_world (edgeless_config 8 4 1 1))
    ∧ (∀ q, (fresh_world (edgeless_config 8 4 1 1) q).S_ = ∅)
    ∧ block_start (edgeless_config 8 4 1 1).bs 3 = 9
    ∧ block_end (edgeless_config 8 4 1 1).bs (edgeless_config 8 4 1 1).G.num_nodes 3 = 8
    ∧ vertex_distance 9 8 = 4294967295
    ∧ vertex_narrow (9 + 4294967288) = 1
    ∧ count_block (edgeless_config 8 4 1 1) σ 0 0
        (after_frontier (edgeless_config 8 4 1 1) σ 0
          (fresh_world (edgeless_config 8 4 1 1)) 0).frontier_cache_ ∅ [0, 0, 0] 3
        = [2, 3, 2]
    ∧ (after_fence (edgeless_config 8 4 1 1) σ 0
          (fresh_world (edgeless_config 8 4 1 1)) 3).global_count_ = [8, 12, 8]
    ∧ (∀ j, true_score (edgeless_config 8 4 1 1) σ 0
          (fresh_world (edgeless_config 8 4 1 1)) ∅ (3 * (edgeless_config 8 4 1 1).bs + j)
        = 0) := by
  have key := fun i rank fc S lc p =>
    count_block_cpu (edgeless_config 8 4 1 1) idle_schedule i rank fc S lc p
      (by decide) (by decide) (by decide) (by decide)
  refine ⟨roundStart_fresh _, fun _ => rfl, by decide, by decide, by decide, by decide, ?_, ?_,
    fun j => true_score_zero _ _ _ _ _ _ (Or.inr ?_)⟩
  · have hf : after_frontier (edgeless_config 8 4 1 1) σ 0
        (fresh_world (edgeless_config 8 4 1 1)) 0
        = after_frontier (edgeless_config 8 4 1 1) idle_schedule 0
            (fresh_world (edgeless_config 8 4 1 1)) 0 :=
      frontier_phase_sched _ σ idle_schedule 0 0 _
    rw [count_block_sched _ σ idle_schedule, hf, key]
    decide
  · rw [(round_sched _ σ idle_schedule 0 _).1]
    simp only [after_fence, after_fence_with, round_ops, counting_phase, key]
    decide
  · show 8 ≤ 3 * 3 + j
    omega

/-- C7 does not hold on the code when a block starts beyond the last vertex.  On 8
vertices without live edges, 4 ranks, one CPU worker and one sample per rank (a
non-empty sample range, a traversal that counts at least its start vertex,
`k = 1 ≤ n`), `exec` on fresh engines returns on every rank and for every
interleaving the set `{10}`: the id inserted by the first round is not a vertex
of the graph. -/
theorem seed_set_gets_id_beyond_n (σ : Schedule) :
    (1 ≤ (edgeless_config 8 4 1 1).G.num_nodes
      ∧ (edgeless_config 8 4 1 1).G.num_nodes = 8)
    ∧ (∀ r, (edgeless_config 8 4 1 1).samples r ≠ [])
    ∧ (∀ m u vis, 1 ≤ (edgeless_config 8 4 1 1).G.BFS_vertex m u vis)
    ∧ (∀ r, exec (edgeless_config 8 4 1 1) σ 1 r = {10})
    ∧ ¬ (∀ r, ∀ v ∈ exec (edgeless_config 8 4 1 1) σ 1 r,
          v < (edgeless_config 8 4 1 1).G.num_nodes) := by
  have hexec : ∀ r, exec (edgeless_config 8 4 1 1) σ 1 r = {10} := by
    intro r
    show insert (global_best (edgeless_config 8 4 1 1)
      (after_fence (edgeless_config 8 4 1 1) σ 0 (fresh_world (edgeless_config 8 4 1 1)))).2
      (∅ : Finset Nat) = {10}
    rw [global_best_beyond_n σ]
    rfl
  refine ⟨by decide, fun _ => List.cons_ne_nil _ _, edgeless_BFS_vertex_pos 8, hexec,
    fun h => ?_⟩
  have h10 := h 0 10 (by rw [hexec 0]; exact Finset.mem_singleton_self 10)
  exact absurd h10 (by decide)

/-- C13 does not hold on the code when a block starts beyond the last vertex.  On
8 vertices without live edges, 4 ranks (`bs = 3`), one CPU worker and one sample
per rank, every traversal count is non-negative, and in the first round on fresh
engines, for every interleaving, the ranks propose `(4, 0)`, `(4, 3)`, `(4, 6)`
and `(12, 10)`: the reduction returns `(12, 10)` and the id inserted into `S` is
10, which is not below `n = 8`. -/
theorem selected_id_beyond_n (σ : Schedule) :
    (1 ≤ (edgeless_config 8 4 1 1).G.num_nodes ∧ 1 ≤ (edgeless_config 8 4 1 1).world_size
      ∧ (edgeless_config 8 4 1 1).G.num_nodes = 8)
    ∧ (∀ m u vis, 0 ≤ (edgeless_config 8 4 1 1).G.BFS_vertex m u vis)
    ∧ (List.range 4).map (fun r => proposal (edgeless_config 8 4 1 1).bs r
          (after_fence (edgeless_config 8 4 1 1) σ 0
            (fresh_world (edgeless_config 8 4 1 1)) r))
        = [(4, 0), (4, 3), (4, 6), (12, 10)]
    ∧ selected (edgeless_config 8 4 1 1) σ 0 = 10
    ∧ ¬ selected (edgeless_config 8 4 1 1) σ 0 < (edgeless_config 8 4 1 1).G.num_nodes := by
  have key := fun i rank fc S lc p =>
    count_block_cpu (edgeless_config 8 4 1 1) idle_schedule i rank fc S lc p
      (by decide) (by decide) (by decide) (by decide)
  have hsel : selected (edgeless_config 8 4 1 1) σ 0 = 10 := by
    show (global_best (edgeless_config 8 4 1 1)
      (after_fence (edgeless_config 8 4 1 1) σ 0 (fresh_world (edgeless_config 8 4 1 1)))).2
      = 10
    rw [global_best_beyond_n σ]
  refine ⟨by decide,
    fun m u vis => le_trans (by decide) (edgeless_BFS_vertex_pos 8 m u vis), ?_, hsel, ?_⟩
  · rw [(round_sched _ σ idle_schedule 0 _).1]
    simp only [after_fence, after_fence_with, round_ops, counting_phase, key]
    decide
  · rw [hsel]
    decide

/-! ## Instances without a block beyond the last vertex -/

theorem blocksFit_edgeless_3_2 : BlocksFit (edgeless_config 3 2 1 1) := by
  unfold BlocksFit
  decide

theorem blocksFit_edgeless_5_2 : BlocksFit (edgeless_config 5 2 1 2) := by
  unfold BlocksFit
  decide

theorem blocksFit_edgeless_2_2 : BlocksFit (edgeless_config 2 2 1 1) := by
  unfold BlocksFit
  decide

/-- An instance of `accumulation_of_fit`: 3 vertices on 2 ranks with one sample
each, fresh engines, the accumulates taking effect in the reverse of the issue
order; slot 0 of rank 1 (vertex 2) receives 1 from each rank. -/
theorem accumulation_of_fit_instance :
    ((after_fence_with (edgeless_config 3 2 1 1) idle_schedule 0
          (fresh_world (edgeless_config 3 2 1 1))
          (round_ops (edgeless_config 3 2 1 1) idle_schedule 0
            (fresh_world (edgeless_config 3 2 1 1))).reverse 1).global_count_).getD 0 0 = 2
    ∧ ((after_fence_with (edgeless_config 3 2 1 1) idle_schedule 0
          (fresh_world (edgeless_config 3 2 1 1))
          (round_ops (edgeless_config 3 2 1 1) idle_schedule 0
            (fresh_world (edgeless_config 3 2 1 1))).reverse 1).global_count_).getD 0 0
      = ∑ q ∈ Finset.range (edgeless_config 3 2 1 1).world_size,
          ∑ s ∈ Finset.range ((edgeless_config 3 2 1 1).samples q).length,
            contribution (edgeless_config 3 2 1 1).G ((edgeless_config 3 2 1 1).samples q)
              (after_frontier (edgeless_config 3 2 1 1) idle_schedule 0
                (fresh_world (edgeless_config 3 2 1 1)) q).frontier_cache_ ∅ s
              (1 * (edgeless_config 3 2 1 1).bs + 0) :=
  ⟨by decide,
    accumulation_of_fit (edgeless_config 3 2 1 1) idle_schedule 0
      (fresh_world (edgeless_config 3 2 1 1)) ∅ (by decide) blocksFit_edgeless_3_2
      (fun _ _ => ⟨rfl, rfl, rfl⟩) _ (List.reverse_perm _) 1 (by decide) 0 (by decide)⟩

/-- An instance of `seed_set_grows_of_fit`: 5 vertices without live edges on 2
ranks, one CPU worker and two samples per rank, `k = 3`. -/
theorem seed_set_grows_of_fit_instance :
    ∀ r, (exec (edgeless_config 5 2 1 2) idle_schedule 3 r).card = 3 :=
  (seed_set_grows_of_fit (edgeless_config 5 2 1 2) idle_schedule 3
    (by decide) (by decide) blocksFit_edgeless_5_2 (by decide)
    (fun _ _ => List.cons_ne_nil _ _) (edgeless_BFS_vertex_pos 5)).2.2

/-- An instance of `selected_is_vertex_of_fit`: 2 vertices without live edges on
2 ranks (`bs = 2`, so the block of rank 1 starts at 2 and is empty), one CPU worker
and one sample per rank. -/
theorem selected_is_vertex_of_fit_instance :
    (2 : Nat) ≤ block_start (edgeless_config 2 2 1 1).bs 1
    ∧ ∀ i, selected (edgeless_config 2 2 1 1) idle_schedule i
        < (edgeless_config 2 2 1 1).G.num_nodes :=
  ⟨by decide,
    (selected_is_vertex_of_fit (edgeless_config 2 2 1 1) idle_schedule (by decide) (by decide)
      (by decide) blocksFit_edgeless_2_2
      (fun m u vis => le_trans (by decide) (edgeless_BFS_vertex_pos 2 m u vis))).2.1⟩

/-! ## Pools with a GPU worker: the frontier depends on the claiming worker -/

theorem worker_claim_fst (L : Nat) (workers : List WorkerKind) (s : Cursor × List WorkerKind)
    (w : Nat) :
    (worker_claim L workers s w).1 = fetch_add_claim L (worker_pool workers) s.1 w := by
  unfold worker_claim
  cases h : workers[w]? with
  | none =>
    have hp : (worker_pool workers)[w]? = none := by
      unfold worker_pool
      rw [List.getElem?_map, h]
      rfl
    unfold fetch_add_claim
    rw [hp]
  | some kind => rfl

theorem worker_claim_length (L : Nat) (workers : List WorkerKind) (s : Cursor × List WorkerKind)
    (w : Nat) (hs : s.2.length = s.1.log.length) :
    (worker_claim L workers s w).2.length = (worker_claim L workers s w).1.log.length := by
  unfold worker_claim
  cases h : workers[w]? with
  | none => exact hs
  | some kind =>
    have hp : (worker_pool workers)[w]? = some kind.batch_size_ := by
      unfold worker_pool
      rw [List.getElem?_map, h]
      rfl
    show (if w ∈ s.1.stopped then s.2 else if s.1.mpmc_head < L then s.2 ++ [kind]
      else s.2).length = (fetch_add_claim L (worker_pool workers) s.1 w).log.length
    unfold fetch_add_claim
    rw [hp]
    show _ = (if w ∈ s.1.stopped then s.1 else if s.1.mpmc_head < L then _ else _).log.length
    by_cases h1 : w ∈ s.1.stopped
    · rw [if_pos h1, if_pos h1]
      exact hs
    · rw [if_neg h1, if_neg h1]
      by_cases h2 : s.1.mpmc_head < L
      · rw [if_pos h2, if_pos h2, List.length_append, List.length_append, hs]
        rfl
      · rw [if_neg h2, if_neg h2]
        exact hs

theorem worker_claims_foldl (L : Nat) (workers : List WorkerKind) (sched : List Nat) :
    ∀ s : Cursor × List WorkerKind, s.2.length = s.1.log.length →
      (sched.foldl (worker_claim L workers) s).1
          = sched.foldl (fetch_add_claim L (worker_pool workers)) s.1
        ∧ (sched.foldl (worker_claim L workers) s).2.length
          = (sched.foldl (worker_claim L workers) s).1.log.length := by
  induction sched with
  | nil => intro s hs; exact ⟨rfl, hs⟩
  | cons w rest ih =>
    intro s hs
    rw [List.foldl_cons, List.foldl_cons]
    obtain ⟨h1, h2⟩ := ih (worker_claim L workers s w) (worker_claim_length L workers s w hs)
    refine ⟨?_, h2⟩
    rw [h1, worker_claim_fst]

/-- The claims recorded with the class of the claiming worker are those of the
task cursor for the batch sizes of the workers. -/
theorem worker_claims_fst (L : Nat) (workers : List WorkerKind) (sched : List Nat) :
    (worker_claims L workers sched).map Prod.fst
      = phase_claims L (worker_pool workers) sched := by
  obtain ⟨h1, h2⟩ := worker_claims_foldl L workers (sched ++ drain L (worker_pool workers))
    (cursor_reset, []) rfl
  unfold worker_claims phase_claims run_claims
  simp only
  rw [List.map_fst_zip _ _ (le_of_eq h2.symm), h1]

/-- With no GPU worker every claim is made by a CPU worker. -/
theorem worker_claims_cpu (L cpu_workers : Nat) (sched : List Nat) :
    ∀ a ∈ worker_claims L (workers_ cpu_workers 0) sched, a.2 = WorkerKind.cpu := by
  have hw : ∀ (w : Nat) (kind : WorkerKind), (workers_ cpu_workers 0)[w]? = some kind →
      kind = WorkerKind.cpu := by
    intro w kind h
    have hm := List.getElem?_mem h
    unfold workers_ at hm
    rw [List.replicate_zero, List.append_nil] at hm
    exact List.eq_of_mem_replicate hm
  have key : ∀ (l : List Nat) (s : Cursor × List WorkerKind),
      (∀ k ∈ s.2, k = WorkerKind.cpu) →
      ∀ k ∈ (l.foldl (worker_claim L (workers_ cpu_workers 0)) s).2, k = WorkerKind.cpu := by
    intro l
    induction l with
    | nil => intro s hs; exact hs
    | cons w rest ih =>
      intro s hs
      rw [List.foldl_cons]
      apply ih
      unfold worker_claim
      cases h : (workers_ cpu_workers 0)[w]? with
      | none => exact hs
      | some kind =>
        show ∀ k ∈ (if w ∈ s.1.stopped then s.2 else if s.1.mpmc_head < L then s.2 ++ [kind]
          else s.2), k = WorkerKind.cpu
        intro k hk
        split_ifs at hk
        · exact hs k hk
        · rcases List.mem_append.1 hk with h1 | h1
          · exact hs k h1
          · rw [List.mem_singleton.1 h1]
            exact hw w kind h
        · exact hs k hk
  intro a ha
  unfold worker_claims at ha
  exact key _ (cursor_reset, []) (fun k hk => absurd hk (List.not_mem_nil k)) a.2
    (List.of_mem_zip ha).2

theorem worker_pool_cpu (cpu_workers : Nat) :
    worker_pool (workers_ cpu_workers 0) = cpu_pool cpu_workers := by
  unfold worker_pool workers_ cpu_pool
  rw [List.replicate_zero, List.append_nil, List.map_replicate]
  rfl

theorem foldl_map_fst_of_cpu {M : Type} (G : Graph M) (traverse : M → Finset Nat → List Nat)
    (samples : List M) (S : Finset Nat) :
    ∀ (l : List ((Nat × Nat) × WorkerKind)) (fc : List (List Bool)),
      (∀ a ∈ l, a.2 = WorkerKind.cpu) →
      l.foldl
          (fun fc a =>
            let first := a.1.1
            let last := if first + a.1.2 > samples.length then samples.length
              else first + a.1.2
            match a.2 with
            | WorkerKind.cpu => batch_frontier G samples S fc first last a.1.1
            | WorkerKind.gpu =>
              gpu_batch_frontier G.num_nodes traverse samples S fc first last a.1.1)
          fc
        = (l.map Prod.fst).foldl
            (fun fc a =>
              let first := a.1
              let last := if first + a.2 > samples.length then samples.length
                else first + a.2
              batch_frontier G samples S fc first last a.1)
            fc := by
  intro l
  induction l with
  | nil => intro fc _; rfl
  | cons a rest ih =>
    intro fc h
    rw [List.foldl_cons, List.map_cons, List.foldl_cons,
      ih _ (fun b hb => h b (List.mem_cons_of_mem _ hb))]
    have ha := h a (List.mem_cons_self _ _)
    simp only [ha]

/-- An engine without GPU workers: the frontier region is `build_frontier` of the
CPU workers. -/
theorem workers_build_frontier_cpu {M : Type} (G : Graph M)
    (traverse : M → Finset Nat → List Nat) (cpu_workers : Nat) (sched : List Nat)
    (samples : List M) (S : Finset Nat) (fc : List (List Bool)) :
    workers_build_frontier G traverse (workers_ cpu_workers 0) sched samples S fc
      = build_frontier G (cpu_pool cpu_workers) sched samples S fc := by
  unfold workers_build_frontier build_frontier
  rw [foldl_map_fst_of_cpu G traverse samples S _ fc (worker_claims_cpu _ cpu_workers sched),
    worker_claims_fst, worker_pool_cpu]

/-- C8 does not hold on the code for a pool with a GPU worker.  One rank, one CPU
worker (thread 0) and one GPU worker (thread 1), 3 vertices, the edge `1 -> 2`, one
sample in which the edge is live, `k = 2`; in both runs thread 0 makes the first
claim of every counters region, so the CPU worker counts the whole block.  Round 1:
the CPU worker claims the sample, the frontier is empty, the scores are
`[1, 2, 1, 0]` and vertex 1 is selected.  Round 2, `S = {1}`, the solver returns
the bitmap `[6]` of the reachable set `{1, 2}`.  When thread 0 claims the sample,
the CPU worker stores `[false, true, true]`, the scores are `[1, 0, 2, 0]` and
vertex 2 is selected.  When thread 1 claims the sample, the GPU worker stores
`[true, true, true]`, the scores are `[3, 0, 3, 0]` and vertex 0 is selected. -/
theorem frontier_depends_on_claiming_worker :
    workers_ 1 1 = [WorkerKind.cpu, WorkerKind.gpu]
    ∧ worker_claims 1 (workers_ 1 1) [0] = [((0, 8), WorkerKind.cpu)]
    ∧ worker_claims 1 (workers_ 1 1) [1] = [((0, 2), WorkerKind.gpu)]
    ∧ worker_claims (vertex_distance 0 3) (workers_ 1 1) [0] = [((0, 8), WorkerKind.cpu)]
    ∧ workers_build_frontier (edge_list_graph 3 [(1, 2)]) (fun _ _ => [6]) (workers_ 1 1) [0]
        [[true]] ∅ [[]] = [[false, false, false]]
    ∧ batch_counters (edge_list_graph 3 [(1, 2)]) ∅ [[false, false, false]] [0, 0, 0, 0]
        0 3 0 0 [true] = [1, 2, 1, 0]
    ∧ max_element [1, 2, 1, 0] = 1
    ∧ (edge_list_graph 3 [(1, 2)]).BFS_seeds [true] {1} [false, false, false]
        = [false, true, true]
    ∧ bitmap_vector 3 [6] = [false, true, true]
    ∧ workers_build_frontier (edge_list_graph 3 [(1, 2)]) (fun _ _ => [6]) (workers_ 1 1) [0]
        [[true]] {1} [[]] = [[false, true, true]]
    ∧ batch_counters (edge_list_graph 3 [(1, 2)]) {1} [[false, true, true]] [0, 0, 0, 0]
        0 3 0 2 [true] = [1, 0, 2, 0]
    ∧ max_element [1, 0, 2, 0] = 2
    ∧ workers_build_frontier (edge_list_graph 3 [(1, 2)]) (fun _ _ => [6]) (workers_ 1 1) [1]
        [[true]] {1} [[]] = [[true, true, true]]
    ∧ batch_counters (edge_list_graph 3 [(1, 2)]) {1} [[true, true, true]] [0, 0, 0, 0]
        0 3 0 3 [true] = [3, 0, 3, 0]
    ∧ max_element [3, 0, 3, 0] = 0 := by
  refine ⟨rfl, by decide, by decide, by decide, by decide, by decide, by decide, by decide,
    by decide, by decide, by decide, by decide, by decide, by decide, by decide⟩

end Ripples
